import Mathlib

/-!
Verification of the FRI verifier of the plonky2 repository.

We give a shallow embedding of the native FRI verifier
(`plonky2/src/fri/verifier.rs`) together with the bit-reversal utilities
(`src/util/mod.rs`) and the field helper functions (`src/field/field_types.rs`)
that it relies on, and prove the specified properties about them.

The base field and its extension are abstract fields `F` and `E`, connected by
a ring homomorphism `emb : F →+* E` standing for the `.into()` embedding of the
source.  Collaborator components that are out of scope (Merkle proof checking,
hashing, the transcript) are parameters of the embedded definitions.
-/

namespace Plonky2

/-- Bit length of a natural number computed with explicit fuel (one unit per
binary digit), so that it evaluates by kernel reduction. -/
def natBits : Nat → Nat → Nat
  | 0, _ => 0
  | fuel + 1, n => if n = 0 then 0 else natBits fuel (n / 2) + 1

/-- Embedding of `bits_u64` (`src/util/mod.rs`): `64 - n.leading_zeros()`, the
number of binary digits of a `u64` value. -/
def bits_u64 (n : Nat) : Nat :=
  natBits 64 n

/-- Embedding of `Field::exp_power_of_2` (`src/field/field_types.rs`): start
from `self` and square `power_log` times. -/
def exp_power_of_2 {M : Type} [Monoid M] (x : M) : Nat → M
  | 0 => x
  | k + 1 => exp_power_of_2 (x * x) k

/-- One step of the loop body of `Field::exp_u64`: the running `current` is
squared each iteration and multiplied into `product` on set bits, scanning the
bits of `power` from the bottom.  The fuel argument is the loop bound
`bits_u64 power` of the source. -/
def exp_u64_loop {M : Type} [Monoid M] (current product : M) (power : Nat) : Nat → M
  | 0 => product
  | fuel + 1 =>
    exp_u64_loop (current * current)
      (if power % 2 = 1 then product * current else product) (power / 2) fuel

/-- Embedding of `Field::exp_u64` (`src/field/field_types.rs`). -/
def exp_u64 {M : Type} [Monoid M] (x : M) (power : Nat) : M :=
  exp_u64_loop x 1 power (bits_u64 power)

/-- Reversal of the low `k` bits of a natural number: bit `i` of the input
becomes bit `k - 1 - i` of the output.  This is the mathematical permutation
that the bit-reversal code of `src/util/mod.rs` implements. -/
def natBitRev : Nat → Nat → Nat
  | 0, _ => 0
  | k + 1, n => n % 2 * 2 ^ k + natBitRev k (n / 2)

/-- Embedding of `reverse_bits` (`src/util/mod.rs`): reverse all 64 bits of the
`u64` value `n` (`n.reverse_bits()`), then shift right by
`usize::BITS - num_bits` using `overflowing_shr`, whose effective shift amount
is taken modulo 64. -/
def reverse_bits (n num_bits : Nat) : Nat :=
  natBitRev 64 n >>> ((64 - num_bits) % 64)

/-- Embedding of the lookup table `BIT_REVERSE_6BIT` of `src/util/mod.rs`. -/
def BIT_REVERSE_6BIT : List Nat :=
  [0o00, 0o40, 0o20, 0o60, 0o10, 0o50, 0o30, 0o70,
   0o04, 0o44, 0o24, 0o64, 0o14, 0o54, 0o34, 0o74,
   0o02, 0o42, 0o22, 0o62, 0o12, 0o52, 0o32, 0o72,
   0o06, 0o46, 0o26, 0o66, 0o16, 0o56, 0o36, 0o76,
   0o01, 0o41, 0o21, 0o61, 0o11, 0o51, 0o31, 0o71,
   0o05, 0o45, 0o25, 0o65, 0o15, 0o55, 0o35, 0o75,
   0o03, 0o43, 0o23, 0o63, 0o13, 0o53, 0o33, 0o73,
   0o07, 0o47, 0o27, 0o67, 0o17, 0o57, 0o37, 0o77]

/-- Model of `Vec::swap` on lists: exchange the entries at positions `i` and
`j`, a no-op when either index is out of range. -/
def listSwap {α : Type} (l : List α) (i j : Nat) : List α :=
  match l[i]?, l[j]? with
  | some a, some b => (l.set i b).set j a
  | _, _ => l

/-- The conditional-swap loop shared by both in-place bit-reversal variants:
process `src = 0, 1, …, m-1` in order, swapping `src` with `dst src` whenever
`src < dst src`. -/
def condSwapLoop {α : Type} (dst : Nat → Nat) (l : List α) (m : Nat) : List α :=
  (List.range m).foldl (fun a src => if src < dst src then listSwap a src (dst src) else a) l

/-- Embedding of `reverse_index_bits_in_place_small` (`src/util/mod.rs`):
table-based variant used when `n_power <= 6`. -/
def reverse_index_bits_in_place_small {α : Type} (arr : List α) (n_power : Nat) : List α :=
  (List.range arr.length).foldl
    (fun a src =>
      let dst := BIT_REVERSE_6BIT.getD src 0 >>> (6 - n_power)
      if src < dst then listSwap a src dst else a) arr

/-- Embedding of `reverse_index_bits_in_place_large` (`src/util/mod.rs`):
chunked variant used when `n_power > 6`; the destination index is assembled
from a 64-bit reversal of the chunk index and a table lookup for the low
6 bits. -/
def reverse_index_bits_in_place_large {α : Type} (arr : List α) (n_power : Nat) : List α :=
  (List.range (arr.length >>> 6)).foldl
    (fun a src_chunk =>
      let src_hi := src_chunk <<< 6
      let dst_lo := natBitRev 64 src_chunk >>> (64 - (n_power - 6))
      (List.range 64).foldl
        (fun a2 src_lo =>
          let dst_hi := BIT_REVERSE_6BIT.getD src_lo 0 <<< (n_power - 6)
          let src := src_hi + src_lo
          let dst := dst_hi + dst_lo
          if src < dst then listSwap a2 src dst else a2) a) arr

/-- Embedding of `log2_strict` (`src/util/mod.rs`).  The source asserts that
`n` is a power of two and then computes `log2_ceil n`, which on powers of two
is the exact base-2 logarithm; the power-of-two requirement reappears as a
hypothesis of the theorems below. -/
def log2_strict (n : Nat) : Nat :=
  Nat.log2 n

/-- Embedding of `reverse_index_bits_in_place` (`src/util/mod.rs`): dispatch
between the two optimized variants on `n_power <= 6`. -/
def reverse_index_bits_in_place {α : Type} (arr : List α) : List α :=
  let n_power := log2_strict arr.length
  if n_power ≤ 6 then reverse_index_bits_in_place_small arr n_power
  else reverse_index_bits_in_place_large arr n_power

/-- The constants a base field provides (`src/field/field_types.rs`): the
generator of the full multiplicative group, the generator of the maximal
power-of-two subgroup, and the two-adicity of the group order. -/
structure FieldConfig (F : Type) where
  multiplicative_group_generator : F
  power_of_two_generator : F
  two_adicity : Nat

/-- Embedding of `Field::primitive_root_of_unity`
(`src/field/field_types.rs`): square the power-of-two generator
`TWO_ADICITY - n_log` times. -/
def primitive_root_of_unity {F : Type} [Monoid F] (c : FieldConfig F) (n_log : Nat) : F :=
  exp_power_of_2 c.power_of_two_generator (c.two_adicity - n_log)

/-- One entry of `FriInstanceInfo.batches[_].polynomials`
(`plonky2/src/fri/structure.rs`, reconstructed from its use in
`plonky2/src/fri/verifier.rs`): an (oracle, polynomial) coordinate pair. -/
structure FriPolynomialInfo where
  oracle_index : Nat
  polynomial_index : Nat

/-- One oracle declaration: whether it is blinded (salted). -/
structure FriOracleInfo where
  blinding : Bool

/-- A batch: polynomials opened at one common extension-field point. -/
structure FriBatchInfo (E : Type) where
  point : E
  polynomials : List FriPolynomialInfo

/-- The instance: the declared oracles and the ordered list of batches. -/
structure FriInstanceInfo (E : Type) where
  oracles : List FriOracleInfo
  batches : List (FriBatchInfo E)

/-- Claimed opening values of one batch. -/
structure FriOpeningBatch (E : Type) where
  values : List E

/-- Claimed opening values of all batches. -/
structure FriOpenings (E : Type) where
  batches : List (FriOpeningBatch E)

/-- The challenges consumed by the verifier.  `fri_pow_response` is carried as
the canonical `u64` encoding (`to_canonical_u64`) of the base-field response,
which is the only view of it the verifier uses. -/
structure FriChallenges (E : Type) where
  fri_alpha : E
  fri_betas : List E
  fri_pow_response : Nat
  fri_query_indices : List Nat

/-- The FRI configuration (`plonky2/src/fri/mod.rs`, reconstructed from its
use in the verifier). -/
structure FriConfig where
  rate_bits : Nat
  cap_height : Nat
  proof_of_work_bits : Nat
  num_query_rounds : Nat

/-- The FRI parameters (`plonky2/src/fri/mod.rs`, reconstructed from use). -/
structure FriParams where
  config : FriConfig
  «hiding» : Bool
  degree_bits : Nat
  reduction_arity_bits : List Nat

/-- Modelled from the spec: `FriParams::lde_bits` is not under `src/`; the
starting domain's log-size is the degree log-size plus the rate bits. -/
def FriParams.lde_bits (p : FriParams) : Nat :=
  p.degree_bits + p.config.rate_bits

/-- Modelled from the spec: `FriParams::lde_size` is not under `src/`. -/
def FriParams.lde_size (p : FriParams) : Nat :=
  2 ^ p.lde_bits

/-- Modelled from the spec: `FriParams::final_poly_len` is not under `src/`;
the arity bits sum to the gap between the starting domain's log-size and the
final polynomial's log-size. -/
def FriParams.final_poly_len (p : FriParams) : Nat :=
  2 ^ (p.degree_bits - p.reduction_arity_bits.sum)

/-- Per-oracle leaf values and Merkle paths of the initial trees at one
queried index (`plonky2/src/fri/proof.rs`, reconstructed from use). -/
structure FriInitialTreeProof (F MProof : Type) where
  evals_proofs : List (List F × MProof)

/-- Modelled from the spec: the salt width (`SALT_SIZE`) of blinded oracles is
not under `src/`; blinded ("salted") leaves carry four extra salt values. -/
def SALT_SIZE : Nat := 4

/-- Embedding of `FriInitialTreeProof::unsalted_eval` (reconstructed from use):
drop the salt from the oracle's leaf values and index the polynomial. -/
def FriInitialTreeProof.unsalted_eval {F MProof : Type} [Field F]
    (p : FriInitialTreeProof F MProof) (oracle_index polynomial_index : Nat)
    (salted : Bool) : F :=
  let evals := ((p.evals_proofs[oracle_index]?).map Prod.fst).getD []
  let unsalted := evals.take (evals.length - if salted then SALT_SIZE else 0)
  unsalted.getD polynomial_index 0

/-- One commit-phase folding step of a query round: the `2^arity_bits` sibling
evaluations and their Merkle path. -/
structure FriQueryStep (E MProof : Type) where
  evals : List E
  merkle_proof : MProof

/-- One query round of the proof. -/
structure FriQueryRound (F E MProof : Type) where
  initial_trees_proof : FriInitialTreeProof F MProof
  steps : List (FriQueryStep E MProof)

/-- A polynomial in coefficient form. -/
structure PolynomialCoeffs (E : Type) where
  coeffs : List E

/-- Modelled from the spec: `PolynomialCoeffs::eval` is not under `src/`;
evaluate the prover-supplied final-polynomial coefficients at a point. -/
def PolynomialCoeffs.eval {E : Type} [Field E] (p : PolynomialCoeffs E) (x : E) : E :=
  ∑ i ∈ Finset.range p.coeffs.length, p.coeffs.getD i 0 * x ^ i

/-- The FRI proof object. -/
structure FriProof (F E Cap MProof : Type) where
  commit_phase_merkle_caps : List Cap
  query_round_proofs : List (FriQueryRound F E MProof)
  final_poly : PolynomialCoeffs E
  pow_witness : F

/-- Modelled from the spec: `util/reducing.rs` is not under `src/`.  A
`ReducingFactor` carries the batching challenge `base` together with a count
of how many values have been absorbed since the last shift. -/
structure ReducingFactor (E : Type) where
  base : E
  count : Nat

/-- Modelled from the spec: a fresh `ReducingFactor` with count zero. -/
def ReducingFactor.new {E : Type} (base : E) : ReducingFactor E :=
  ⟨base, 0⟩

/-- Modelled from the spec: `reduce` Horner-folds the values from the top,
`acc ← base * acc + v`, so that the result is `∑ i, v_i * base^i`; the count
grows by the number of values consumed. -/
def ReducingFactor.reduce {E : Type} [Field E] (rf : ReducingFactor E) (vs : List E) :
    E × ReducingFactor E :=
  (vs.reverse.foldl (fun acc v => rf.base * acc + v) 0, ⟨rf.base, rf.count + vs.length⟩)

/-- Modelled from the spec: `shift` multiplies by `base^count` — `alpha`
raised to the number of polynomials just reduced — and resets the count. -/
def ReducingFactor.shift {E : Type} [Field E] (rf : ReducingFactor E) (x : E) :
    E × ReducingFactor E :=
  (rf.base ^ rf.count * x, ⟨rf.base, 0⟩)

/-- Embedding of `PrecomputedReducedOpenings::from_os_and_alpha`
(`plonky2/src/fri/verifier.rs`): per batch, the `alpha`-reduction of the
claimed openings, where in the hiding case the first batch drops its last two
values (the low and high halves of the random `R` polynomial).  The index
counter mirrors the source's `enumerate`. -/
def from_os_and_alpha_loop {E : Type} [Field E] (alpha : E) (nb_r_polys : Nat) :
    Nat → List (FriOpeningBatch E) → List E
  | _, [] => []
  | i, batch :: rest =>
    let last_values := batch.values.length - nb_r_polys * (if i = 0 then 1 else 0)
    ((ReducingFactor.new alpha).reduce (batch.values.take last_values)).1 ::
      from_os_and_alpha_loop alpha nb_r_polys (i + 1) rest

/-- Embedding of `PrecomputedReducedOpenings::from_os_and_alpha`
(`plonky2/src/fri/verifier.rs`). -/
def PrecomputedReducedOpenings.from_os_and_alpha {E : Type} [Field E]
    (openings : FriOpenings E) (alpha : E) (is_zk : Bool) : List E :=
  let nb_r_polys := (if is_zk then 1 else 0) * 2
  from_os_and_alpha_loop alpha nb_r_polys 0 openings.batches

/-- `u64::leading_zeros` on the canonical encoding: `64` minus the bit length
of the value. -/
def leading_zeros_u64 (n : Nat) : Nat :=
  64 - bits_u64 n

/-- Embedding of `fri_verify_proof_of_work` (`plonky2/src/fri/verifier.rs`):
require at least `proof_of_work_bits + (64 - field_order_bits)` leading zero
bits on the canonical `u64` encoding of the response.  The response is passed
as that encoding and the field's order bit-length as `field_order_bits`. -/
def fri_verify_proof_of_work (fri_pow_response : Nat) (field_order_bits : Nat)
    (config : FriConfig) : Except String Unit :=
  if config.proof_of_work_bits + (64 - field_order_bits) ≤
      leading_zeros_u64 fri_pow_response then
    Except.ok ()
  else
    Except.error "Invalid proof of work witness."

/-- Modelled from the spec: `field/interpolation.rs` (`barycentric_weights`)
is not under `src/`.  The barycentric weight of node `i` is the inverse of
`∏_{j ≠ i} (x_i - x_j)`. -/
def barycentric_weights {E : Type} [Field E] (points : List (E × E)) : List E :=
  (List.range points.length).map fun i =>
    (∏ j ∈ (Finset.range points.length).erase i,
      ((points.getD i (0, 0)).1 - (points.getD j (0, 0)).1))⁻¹

/-- Modelled from the spec: `field/interpolation.rs` (`interpolate`) is not
under `src/`.  Barycentric interpolation of the points, evaluated at `x`:
when `x` is one of the nodes its stored value is returned directly (the
barycentric formula would divide by zero there), otherwise the result is
`l(x) * ∑ i, w_i / (x - x_i) * y_i` with `l(x) = ∏ j (x - x_j)`. -/
def interpolate {E : Type} [Field E] [DecidableEq E] (points : List (E × E)) (x : E)
    (w : List E) : E :=
  match points.find? (fun p => decide (p.1 = x)) with
  | some p => p.2
  | none =>
    (∏ j ∈ Finset.range points.length, (x - (points.getD j (0, 0)).1)) *
      ∑ i ∈ Finset.range points.length,
        w.getD i 0 / (x - (points.getD i (0, 0)).1) * (points.getD i (0, 0)).2

/-- The first `n` values of the `Field::powers` iterator
(`src/field/field_types.rs`): `1, g, g^2, …` — the source zips the infinite
iterator against a list of length `n`. -/
def powersList {M : Type} [Monoid M] (g : M) (n : Nat) : List M :=
  (List.range n).map (g ^ ·)

/-- Embedding of `compute_evaluation` (`plonky2/src/fri/verifier.rs`):
bit-reverse-reorder the evaluation vector, then barycentrically interpolate
the coset points at `beta`. -/
def compute_evaluation {F E : Type} [Field F] [Field E] [DecidableEq E]
    (emb : F →+* E) (c : FieldConfig F) (x : F) (x_index_within_coset arity_bits : Nat)
    (evals : List E) (beta : E) : E :=
  let arity := 2 ^ arity_bits
  let g := primitive_root_of_unity c arity_bits
  let evals' := reverse_index_bits_in_place evals
  let rev_x_index_within_coset := reverse_bits x_index_within_coset arity_bits
  let coset_start := x * exp_u64 g (arity - rev_x_index_within_coset)
  let points := ((powersList g evals'.length).map fun y => emb (coset_start * y)).zip evals'
  interpolate points beta (barycentric_weights points)

/-- Embedding of `fri_verify_initial_proof` (`plonky2/src/fri/verifier.rs`):
check every oracle's Merkle proof at the queried index against its cap.  The
Merkle primitive is the collaborator parameter `mverify`. -/
def fri_verify_initial_proof {F Cap MProof : Type}
    (mverify : List F → Nat → Cap → MProof → Bool) (x_index : Nat)
    (proof : FriInitialTreeProof F MProof) (initial_merkle_caps : List Cap) :
    Except String Unit :=
  if (proof.evals_proofs.zip initial_merkle_caps).all
      (fun ep => mverify ep.1.1 x_index ep.2 ep.1.2) then
    Except.ok ()
  else
    Except.error "initial Merkle proof failed"

/-- Whether the oracle at this index is declared blinding (out-of-range
indices read as not blinding). -/
def oracle_blinding {E : Type} (inst : FriInstanceInfo E) (i : Nat) : Bool :=
  ((inst.oracles[i]?).map FriOracleInfo.blinding).getD false

/-- Loop body of `fri_combine_initial` (`plonky2/src/fri/verifier.rs`): fold
over the batches zipped with their precomputed reduced openings, threading the
`ReducingFactor` and the running sum; the index counter mirrors the source's
`enumerate`. -/
def fri_combine_initial_loop {F E MProof : Type} [Field F] [Field E]
    (emb : F →+* E) (rIndex : Nat) (inst : FriInstanceInfo E)
    (proof : FriInitialTreeProof F MProof) (params : FriParams) (sx : E) :
    ReducingFactor E → E → Nat → List (FriBatchInfo E × E) → E
  | _, sum, _, [] => sum
  | rf, sum, idx, (batch, reduced_openings) :: rest =>
    let is_zk := params.«hiding»
    let nb_r_polys :=
      (batch.polynomials.map fun q => if q.oracle_index = rIndex then 1 else 0).sum
    let last_poly := batch.polynomials.length - nb_r_polys * (if idx = 0 then 1 else 0)
    let evals : List E := (batch.polynomials.take last_poly).map fun q =>
      let salted := params.«hiding» && oracle_blinding inst q.oracle_index
      emb (proof.unsalted_eval q.oracle_index q.polynomial_index salted)
    let red := rf.reduce evals
    let numerator := red.1 - reduced_openings
    let denominator := sx - batch.point
    let sh := red.2.shift sum
    let sum2 := sh.1 + numerator / denominator
    let sum3 :=
      if is_zk && idx = 0 then
        sum2 + ((batch.polynomials.drop last_poly).enum.map fun iq =>
          let salted := params.«hiding» && oracle_blinding inst iq.2.oracle_index
          let ev := proof.unsalted_eval iq.2.oracle_index iq.2.polynomial_index salted
          let shift_val : E := ((if iq.1 = 0 then 1 else 0 : Nat) : E) +
            exp_power_of_2 sx (iq.1 * params.degree_bits) * (iq.1 : E)
          emb ev * shift_val).sum
      else sum2
    fri_combine_initial_loop emb rIndex inst proof params sx sh.2 sum3 (idx + 1) rest

/-- Embedding of `fri_combine_initial` (`plonky2/src/fri/verifier.rs`).
`rIndex` is the collaborator constant `PlonkOracle::R.index`
(`plonk/plonk_common.rs`, not under `src/`). -/
def fri_combine_initial {F E MProof : Type} [Field F] [Field E]
    (emb : F →+* E) (rIndex : Nat) (inst : FriInstanceInfo E)
    (proof : FriInitialTreeProof F MProof) (alpha : E) (subgroup_x : F)
    (precomputed_reduced_evals : List E) (params : FriParams) : E :=
  let sx : E := emb subgroup_x
  fri_combine_initial_loop emb rIndex inst proof params sx
    (ReducingFactor.new alpha) 0 0 (inst.batches.zip precomputed_reduced_evals)

/-- The running state of one query round's folding walk: the domain index, the
base-field domain point, and the running evaluation. -/
structure FriQueryState (F E : Type) where
  x_index : Nat
  subgroup_x : F
  old_eval : E

/-- One folding step of `fri_verifier_query_round`
(`plonky2/src/fri/verifier.rs`): split the index, check consistency with the
running evaluation, infer the next evaluation by interpolation, check the
layer's Merkle proof, and advance the state. -/
def fri_query_step {F E Cap MProof : Type} [Field F] [Field E] [DecidableEq E]
    (emb : F →+* E) (c : FieldConfig F)
    (mverify : List F → Nat → Cap → MProof → Bool) (flat : List E → List F)
    (beta : E) (cap : Cap) (s : FriQueryState F E) (arity_bits : Nat)
    (step : FriQueryStep E MProof) : Except String (FriQueryState F E) :=
  let arity := 2 ^ arity_bits
  let coset_index := s.x_index >>> arity_bits
  let x_index_within_coset := s.x_index &&& (arity - 1)
  if step.evals.getD x_index_within_coset 0 = s.old_eval then
    let old_eval := compute_evaluation emb c s.subgroup_x x_index_within_coset
      arity_bits step.evals beta
    if mverify (flat step.evals) coset_index cap step.merkle_proof then
      Except.ok ⟨coset_index, exp_power_of_2 s.subgroup_x arity_bits, old_eval⟩
    else
      Except.error "commit phase Merkle proof failed"
  else
    Except.error "FRI consistency check failed"

/-- The folding loop of `fri_verifier_query_round`: one step per
reduction-arity entry, zipped with the corresponding proof step, folding
challenge and commit-phase cap. -/
def fri_query_loop {F E Cap MProof : Type} [Field F] [Field E] [DecidableEq E]
    (emb : F →+* E) (c : FieldConfig F)
    (mverify : List F → Nat → Cap → MProof → Bool) (flat : List E → List F) :
    FriQueryState F E → List (Nat × FriQueryStep E MProof × E × Cap) →
      Except String (FriQueryState F E)
  | s, [] => Except.ok s
  | s, (arity_bits, step, beta, cap) :: rest =>
    match fri_query_step emb c mverify flat beta cap s arity_bits step with
    | Except.ok s' => fri_query_loop emb c mverify flat s' rest
    | Except.error e => Except.error e

/-- The source's `subgroup_x` initializer (`plonky2/src/fri/verifier.rs`):
`subgroup[x_index]`, the actual field element in the domain. -/
def fri_round_subgroup_x {F : Type} [Field F] (c : FieldConfig F) (x_index n : Nat) : F :=
  c.multiplicative_group_generator *
    exp_u64 (primitive_root_of_unity c (log2_strict n))
      (reverse_bits x_index (log2_strict n))

/-- The per-step data of one query round: the parameter arity sequence zipped
with the proof's steps, the folding challenges and the commit-phase caps,
which the source indexes positionally. -/
def fri_round_steps {E Cap MProof : Type} {F : Type} (challenges : FriChallenges E)
    (proof : FriProof F E Cap MProof) (round_proof : FriQueryRound F E MProof)
    (params : FriParams) : List (Nat × FriQueryStep E MProof × E × Cap) :=
  params.reduction_arity_bits.zip (round_proof.steps.zip
    (challenges.fri_betas.zip proof.commit_phase_merkle_caps))

/-- The initial walk state of one query round: the queried index, the domain
point it denotes, and the combined initial opening. -/
def fri_round_state0 {F E MProof : Type} [Field F] [Field E]
    (emb : F →+* E) (c : FieldConfig F) (rIndex : Nat) (inst : FriInstanceInfo E)
    (challenges : FriChallenges E) (precomputed_reduced_evals : List E)
    (x_index n : Nat) (round_proof : FriQueryRound F E MProof) (params : FriParams) :
    FriQueryState F E :=
  ⟨x_index, fri_round_subgroup_x c x_index n,
   fri_combine_initial emb rIndex inst round_proof.initial_trees_proof
     challenges.fri_alpha (fri_round_subgroup_x c x_index n)
     precomputed_reduced_evals params⟩

/-- Embedding of `fri_verifier_query_round` (`plonky2/src/fri/verifier.rs`). -/
def fri_verifier_query_round {F E Cap MProof : Type} [Field F] [Field E] [DecidableEq E]
    (emb : F →+* E) (c : FieldConfig F)
    (mverify : List F → Nat → Cap → MProof → Bool) (flat : List E → List F)
    (rIndex : Nat) (inst : FriInstanceInfo E) (challenges : FriChallenges E)
    (precomputed_reduced_evals : List E) (initial_merkle_caps : List Cap)
    (proof : FriProof F E Cap MProof) (x_index : Nat) (n : Nat)
    (round_proof : FriQueryRound F E MProof) (params : FriParams) :
    Except String Unit :=
  match fri_verify_initial_proof mverify x_index round_proof.initial_trees_proof
      initial_merkle_caps with
  | Except.error e => Except.error e
  | Except.ok _ =>
    match fri_query_loop emb c mverify flat
        (fri_round_state0 emb c rIndex inst challenges precomputed_reduced_evals
          x_index n round_proof params)
        (fri_round_steps challenges proof round_proof params) with
    | Except.error e => Except.error e
    | Except.ok st =>
      if proof.final_poly.eval (emb st.subgroup_x) = st.old_eval then
        Except.ok ()
      else
        Except.error "Final polynomial evaluation is invalid."

/-- Modelled from the spec: `validate_fri_proof_shape`
(`fri/validate_shape.rs`) is not under `src/`.  The proof's structural shape
must match the parameters: the configured number of query rounds, one step per
arity entry carrying exactly `2^arity_bits` evaluations, and the
parameter-derived final-polynomial length. -/
def validate_fri_proof_shape {F E Cap MProof : Type}
    (proof : FriProof F E Cap MProof) (params : FriParams) : Except String Unit :=
  if proof.query_round_proofs.length = params.config.num_query_rounds
      ∧ (∀ r ∈ proof.query_round_proofs,
          r.steps.length = params.reduction_arity_bits.length
          ∧ ∀ p ∈ r.steps.zip params.reduction_arity_bits,
              p.1.evals.length = 2 ^ p.2)
      ∧ proof.final_poly.coeffs.length = params.final_poly_len then
    Except.ok ()
  else
    Except.error "shape mismatch"

/-- The per-round loop of `verify_fri_proof`: run every query round in order,
stopping at the first error. -/
def verify_rounds_loop {F E Cap MProof : Type} [Field F] [Field E] [DecidableEq E]
    (emb : F →+* E) (c : FieldConfig F)
    (mverify : List F → Nat → Cap → MProof → Bool) (flat : List E → List F)
    (rIndex : Nat) (inst : FriInstanceInfo E) (challenges : FriChallenges E)
    (precomputed_reduced_evals : List E) (initial_merkle_caps : List Cap)
    (proof : FriProof F E Cap MProof) (n : Nat) (params : FriParams) :
    List (Nat × FriQueryRound F E MProof) → Except String Unit
  | [] => Except.ok ()
  | (x_index, round_proof) :: rest =>
    match fri_verifier_query_round emb c mverify flat rIndex inst challenges
        precomputed_reduced_evals initial_merkle_caps proof x_index n round_proof
        params with
    | Except.error e => Except.error e
    | Except.ok _ =>
      verify_rounds_loop emb c mverify flat rIndex inst challenges
        precomputed_reduced_evals initial_merkle_caps proof n params rest

/-- Embedding of `verify_fri_proof` (`plonky2/src/fri/verifier.rs`): shape
validation, proof-of-work check, round-count coherence, precomputation of the
reduced openings, then the query rounds. -/
def verify_fri_proof {F E Cap MProof : Type} [Field F] [Field E] [DecidableEq E]
    (emb : F →+* E) (c : FieldConfig F)
    (mverify : List F → Nat → Cap → MProof → Bool) (flat : List E → List F)
    (rIndex field_order_bits : Nat) (inst : FriInstanceInfo E)
    (openings : FriOpenings E) (challenges : FriChallenges E)
    (initial_merkle_caps : List Cap) (proof : FriProof F E Cap MProof)
    (params : FriParams) : Except String Unit :=
  match validate_fri_proof_shape proof params with
  | Except.error e => Except.error e
  | Except.ok _ =>
    let n := params.lde_size
    match fri_verify_proof_of_work challenges.fri_pow_response field_order_bits
        params.config with
    | Except.error e => Except.error e
    | Except.ok _ =>
      if params.config.num_query_rounds = proof.query_round_proofs.length then
        let precomputed_reduced_evals := PrecomputedReducedOpenings.from_os_and_alpha
          openings challenges.fri_alpha params.«hiding»
        verify_rounds_loop emb c mverify flat rIndex inst challenges
          precomputed_reduced_evals initial_merkle_caps proof n params
          (challenges.fri_query_indices.zip proof.query_round_proofs)
      else
        Except.error "Number of query rounds does not match config."

/-- Specification-side reduction of a list of values by successive powers of
`alpha` (spec §4.2 step 1): `∑ i, v_i * alpha^i`. -/
def reduceSpec {E : Type} [Field E] (alpha : E) (vs : List E) : E :=
  ∑ i ∈ Finset.range vs.length, vs.getD i 0 * alpha ^ i

/-- The embedded unsalted claimed evaluations of all polynomials of one batch,
as `fri_combine_initial` reads them from the initial-tree proof. -/
def batch_polynomial_evals {F E MProof : Type} [Field F] [Field E] (embf : F → E)
    (inst : FriInstanceInfo E) (proof : FriInitialTreeProof F MProof)
    (params : FriParams) (batch : FriBatchInfo E) : List E :=
  batch.polynomials.map fun q =>
    embf (proof.unsalted_eval q.oracle_index q.polynomial_index
      (params.«hiding» && oracle_blinding inst q.oracle_index))

/-- Specification-side accumulation body (spec §4.2 steps 2–3): shift the sum
by `alpha` to the batch's polynomial count and add the quotient
`(combined_eval − claimed_opening) / (x − batch_point)`. -/
def combine_batch_spec {F E MProof : Type} [Field F] [Field E] (embf : F → E)
    (inst : FriInstanceInfo E) (proof : FriInitialTreeProof F MProof)
    (params : FriParams) (alpha sx : E) (sum : E) (bp : FriBatchInfo E × E) : E :=
  alpha ^ bp.1.polynomials.length * sum +
    (reduceSpec alpha (batch_polynomial_evals embf inst proof params bp.1) - bp.2) /
      (sx - bp.1.point)

/-- Specification-side shift applied to the `i`-th blinding polynomial in the
hiding case (spec §4.2 step 4): `1` for the first one and
`i * x^(2^(i * degree_bits))` for the later ones. -/
def r_poly_shift {E : Type} [Field E] (sx : E) (degree_bits i : Nat) : E :=
  if i = 0 then 1 else (i : E) * sx ^ 2 ^ (i * degree_bits)

-- ## Theorems

/-- `exp_power_of_2 x k` is `x ^ 2^k`. -/
theorem exp_power_of_2_eq {M : Type} [Monoid M] (x : M) (k : Nat) :
    exp_power_of_2 x k = x ^ (2 ^ k) := by
  induction k generalizing x with
  | zero => simp [exp_power_of_2]
  | succ k ih =>
    rw [exp_power_of_2, ih, ← pow_two, ← pow_mul, ← pow_succ']

theorem exp_u64_loop_eq {M : Type} [Monoid M] (fuel : Nat) :
    ∀ (current product : M) (power : Nat), power < 2 ^ fuel →
      exp_u64_loop current product power fuel = product * current ^ power := by
  induction fuel with
  | zero =>
    intro c p pow h
    interval_cases pow
    simp [exp_u64_loop]
  | succ fuel ih =>
    intro c p pow h
    rw [exp_u64_loop, ih _ _ _ (by
      refine Nat.div_lt_of_lt_mul ?_
      rw [← pow_succ']
      exact h)]
    have hsplit : pow % 2 + 2 * (pow / 2) = pow := Nat.mod_add_div pow 2
    have : c ^ pow = c ^ (pow % 2) * (c * c) ^ (pow / 2) := by
      rw [← pow_two, ← pow_mul, ← pow_add, hsplit]
    rw [this]
    rcases Nat.mod_two_eq_zero_or_one pow with h0 | h1
    · rw [h0]; simp [mul_assoc]
    · rw [h1]; simp [if_pos rfl, pow_one, mul_assoc]

/-- A value below `2^fuel` is below `2` to its fuel-computed bit length. -/
theorem lt_two_pow_natBits (fuel : Nat) :
    ∀ n < 2 ^ fuel, n < 2 ^ natBits fuel n := by
  induction fuel with
  | zero => intro n hn; interval_cases n; simp [natBits]
  | succ fuel ih =>
    intro n hn
    rcases eq_or_ne n 0 with rfl | hne
    · simp [natBits]
    · rw [natBits, if_neg hne]
      have hdiv : n / 2 < 2 ^ fuel := by
        refine Nat.div_lt_of_lt_mul ?_
        rw [← pow_succ']
        exact hn
      have := ih (n / 2) hdiv
      have h2 : n < 2 * (n / 2) + 2 := by omega
      calc n < 2 * (n / 2) + 2 := h2
      _ ≤ 2 * (2 ^ natBits fuel (n / 2) - 1) + 2 := by omega
      _ ≤ 2 ^ (natBits fuel (n / 2) + 1) := by
          have hpos : 1 ≤ 2 ^ natBits fuel (n / 2) := Nat.one_le_two_pow
          rw [pow_succ]
          omega

/-- `exp_u64 x n` is `x ^ n` for any `u64` exponent. -/
theorem exp_u64_eq {M : Type} [Monoid M] (x : M) (power : Nat) (hp : power < 2 ^ 64) :
    exp_u64 x power = x ^ power := by
  unfold exp_u64 bits_u64
  rw [exp_u64_loop_eq _ _ _ _ (lt_two_pow_natBits 64 power hp), one_mul]

theorem natBitRev_zero (k : Nat) : natBitRev k 0 = 0 := by
  induction k with
  | zero => rfl
  | succ k ih => simp [natBitRev, ih]

theorem natBitRev_lt (k n : Nat) : natBitRev k n < 2 ^ k := by
  induction k generalizing n with
  | zero => simp [natBitRev]
  | succ k ih =>
    have h1 : n % 2 ≤ 1 := Nat.le_of_lt_succ (Nat.mod_lt n (by norm_num))
    have h2 : natBitRev k (n / 2) < 2 ^ k := ih (n / 2)
    have : n % 2 * 2 ^ k ≤ 2 ^ k := by
      calc n % 2 * 2 ^ k ≤ 1 * 2 ^ k := Nat.mul_le_mul_right _ h1
      _ = 2 ^ k := one_mul _
    calc natBitRev (k + 1) n = n % 2 * 2 ^ k + natBitRev k (n / 2) := rfl
    _ < 2 ^ k + 2 ^ k := by omega
    _ = 2 ^ (k + 1) := by ring

/-- Splitting lemma: reversing `a + c` bits of `hi * 2^a + lo` reverses the two
blocks and swaps them. -/
theorem natBitRev_split (a c hi lo : Nat) (hlo : lo < 2 ^ a) :
    natBitRev (a + c) (hi * 2 ^ a + lo) = natBitRev a lo * 2 ^ c + natBitRev c hi := by
  induction a generalizing lo with
  | zero =>
    interval_cases lo
    simp [natBitRev, natBitRev_zero]
  | succ a ih =>
    have hstep : (a + 1) + c = (a + c) + 1 := by ring
    rw [hstep, natBitRev]
    have hform : hi * 2 ^ (a + 1) + lo = 2 * (hi * 2 ^ a) + lo := by ring
    have hm : (hi * 2 ^ (a + 1) + lo) % 2 = lo % 2 := by
      rw [hform, Nat.mul_add_mod]
    have hd : (hi * 2 ^ (a + 1) + lo) / 2 = hi * 2 ^ a + lo / 2 := by
      rw [hform, Nat.mul_add_div (by norm_num)]
    rw [hm, hd, ih (lo / 2) (Nat.div_lt_of_lt_mul (by rw [← pow_succ']; exact hlo))]
    have hrev : natBitRev (a + 1) lo = lo % 2 * 2 ^ a + natBitRev a (lo / 2) := rfl
    rw [hrev]
    ring

/-- Dual unfolding of `natBitRev`: the top bit of the input becomes the bottom
bit of the output. -/
theorem natBitRev_succ_top (k n : Nat) (hn : n < 2 ^ (k + 1)) :
    natBitRev (k + 1) n = natBitRev k (n % 2 ^ k) * 2 + n / 2 ^ k := by
  have hsplit : n / 2 ^ k * 2 ^ k + n % 2 ^ k = n := Nat.div_add_mod' n (2 ^ k)
  have hmod : n % 2 ^ k < 2 ^ k := Nat.mod_lt _ (Nat.pos_pow_of_pos k (by norm_num))
  calc natBitRev (k + 1) n
      = natBitRev (k + 1) (n / 2 ^ k * 2 ^ k + n % 2 ^ k) := by rw [hsplit]
    _ = natBitRev k (n % 2 ^ k) * 2 ^ 1 + natBitRev 1 (n / 2 ^ k) := by
        exact natBitRev_split k 1 (n / 2 ^ k) (n % 2 ^ k) hmod
    _ = natBitRev k (n % 2 ^ k) * 2 + n / 2 ^ k := by
        have hdiv : n / 2 ^ k < 2 := by
          apply Nat.div_lt_of_lt_mul
          calc n < 2 ^ (k + 1) := hn
          _ = 2 ^ k * 2 := by ring
        have : natBitRev 1 (n / 2 ^ k) = n / 2 ^ k := by
          interval_cases h : n / 2 ^ k <;> simp [natBitRev, natBitRev_zero]
        rw [this]
        norm_num

/-- `natBitRev k` is an involution on `[0, 2^k)`. -/
theorem natBitRev_natBitRev (k : Nat) : ∀ n < 2 ^ k, natBitRev k (natBitRev k n) = n := by
  induction k with
  | zero => intro n hn; interval_cases n; rfl
  | succ k ih =>
    intro n hn
    have hrev : natBitRev (k + 1) n = n % 2 * 2 ^ k + natBitRev k (n / 2) := rfl
    have hlt : natBitRev k (n / 2) < 2 ^ k := natBitRev_lt k (n / 2)
    have hm2 : n % 2 < 2 := Nat.mod_lt n (by norm_num)
    have hmod : natBitRev (k + 1) n % 2 ^ k = natBitRev k (n / 2) := by
      rw [hrev, Nat.mul_add_mod' (n % 2) _ _, Nat.mod_eq_of_lt hlt]
    have hdiv : natBitRev (k + 1) n / 2 ^ k = n % 2 := by
      rw [hrev, Nat.mul_comm (n % 2), Nat.mul_add_div (Nat.pos_pow_of_pos k (by norm_num)),
        Nat.div_eq_of_lt hlt]
      omega
    rw [natBitRev_succ_top k _ (natBitRev_lt (k + 1) n), hmod, hdiv,
      ih (n / 2) (Nat.div_lt_of_lt_mul (by rw [← pow_succ']; exact hn))]
    omega

/-- For an in-range input, `reverse_bits n num_bits` is the `num_bits`-bit
reversal of `n`. -/
theorem reverse_bits_eq (n num_bits : Nat) (hb : num_bits ≤ 64) (hn : n < 2 ^ num_bits) :
    reverse_bits n num_bits = natBitRev num_bits n := by
  rcases Nat.eq_zero_or_pos num_bits with h0 | hpos
  · subst h0
    interval_cases n
    simp [reverse_bits, natBitRev_zero, natBitRev]
  · have hsplit : num_bits + (64 - num_bits) = 64 := by omega
    have hext : natBitRev 64 n = natBitRev num_bits n * 2 ^ (64 - num_bits) := by
      have := natBitRev_split num_bits (64 - num_bits) 0 n hn
      rw [hsplit] at this
      simpa [natBitRev_zero] using this
    have hamt : (64 - num_bits) % 64 = 64 - num_bits := Nat.mod_eq_of_lt (by omega)
    rw [reverse_bits, hext, hamt, Nat.shiftRight_eq_div_pow,
      Nat.mul_div_cancel _ (Nat.pos_pow_of_pos _ (by norm_num))]

/-- The lookup table holds exactly the 6-bit reversals. -/
theorem BIT_REVERSE_6BIT_spec : ∀ i < 64, BIT_REVERSE_6BIT.getD i 0 = natBitRev 6 i := by
  decide

theorem listSwap_length {α : Type} (l : List α) (i j : Nat) :
    (listSwap l i j).length = l.length := by
  unfold listSwap
  rcases h1 : l[i]? with _ | a <;> rcases h2 : l[j]? with _ | b <;> simp

theorem listSwap_getD {α : Type} (l : List α) (i j p : Nat) (d : α)
    (hi : i < l.length) (hj : j < l.length) :
    (listSwap l i j).getD p d =
      if p = j then l.getD i d
      else if p = i then l.getD j d
      else l.getD p d := by
  unfold listSwap
  rw [List.getElem?_eq_getElem hi, List.getElem?_eq_getElem hj]
  simp only [List.getD_eq_getElem?_getD, List.getElem?_set, List.length_set]
  rcases eq_or_ne j p with rfl | hjp
  · simp [hj, List.getElem?_eq_getElem hi]
  · rcases eq_or_ne i p with rfl | hip
    · simp [hjp, Ne.symm hjp, hi, List.getElem?_eq_getElem hj]
    · simp [hjp, Ne.symm hjp, hip, Ne.symm hip]

theorem condSwapLoop_succ {α : Type} (dst : Nat → Nat) (l : List α) (m : Nat) :
    condSwapLoop dst l (m + 1) =
      (if m < dst m then listSwap (condSwapLoop dst l m) m (dst m)
       else condSwapLoop dst l m) := by
  unfold condSwapLoop
  rw [List.range_succ, List.foldl_append]
  rfl

theorem condSwapLoop_length {α : Type} (dst : Nat → Nat) (l : List α) (m : Nat) :
    (condSwapLoop dst l m).length = l.length := by
  induction m with
  | zero => rfl
  | succ m ih =>
    rw [condSwapLoop_succ]
    split
    · rw [listSwap_length, ih]
    · exact ih

/-- Correctness of the conditional-swap loop: running it over the whole index
range of `l` with an involutive destination map applies exactly that
permutation. -/
theorem condSwapLoop_getD {α : Type} (dst : Nat → Nat) (l : List α) (d : α)
    (hrange : ∀ j < l.length, dst j < l.length)
    (hinv : ∀ j < l.length, dst (dst j) = j) :
    ∀ m ≤ l.length, ∀ i < l.length,
      (condSwapLoop dst l m).getD i d =
        if min i (dst i) < m then l.getD (dst i) d else l.getD i d := by
  intro m
  induction m with
  | zero => intro _ i _; simp [condSwapLoop]
  | succ m ih =>
    intro hm i hi
    have hm' : m ≤ l.length := Nat.le_of_succ_le hm
    have hmlt : m < l.length := hm
    have hlen : (condSwapLoop dst l m).length = l.length := condSwapLoop_length dst l m
    rw [condSwapLoop_succ]
    by_cases hswap : m < dst m
    · rw [if_pos hswap]
      rw [listSwap_getD _ _ _ _ _ (by rw [hlen]; exact hmlt)
        (by rw [hlen]; exact hrange m hmlt)]
      rcases eq_or_ne i (dst m) with rfl | hidm
      · rw [if_pos rfl, ih hm' m hmlt]
        have : ¬ min m (dst m) < m := by omega
        rw [if_neg this, if_pos]
        · rw [hinv m hmlt]
        · rw [hinv m hmlt]; omega
      · rw [if_neg hidm]
        rcases eq_or_ne i m with rfl | him
        · rw [if_pos rfl, ih hm' (dst i) (hrange i hi)]
          have h1 : ¬ min (dst i) (dst (dst i)) < i := by rw [hinv i hi]; omega
          rw [if_neg h1, if_pos (by omega)]
        · rw [if_neg him, ih hm' i hi]
          have hne : dst i ≠ m := by
            intro hdm
            apply hidm
            rw [← hdm, hinv i hi]
          rcases Nat.lt_or_ge (min i (dst i)) m with hlt | hge
          · rw [if_pos hlt, if_pos (by omega)]
          · have h2 : ¬ min i (dst i) < m := by omega
            have h3 : ¬ min i (dst i) < m + 1 := by omega
            rw [if_neg h2, if_neg h3]
    · rw [if_neg hswap, ih hm' i hi]
      have hdmm : dst m ≤ m := Nat.le_of_not_lt hswap
      rcases eq_or_ne i m with rfl | him
      · rcases Nat.lt_or_ge (dst i) i with hlt | hge
        · rw [if_pos (by omega), if_pos (by omega)]
        · have hii : dst i = i := by omega
          rw [if_neg (by omega), if_pos (by omega), hii]
      · rcases Nat.lt_or_ge (min i (dst i)) m with hlt | hge
        · rw [if_pos hlt, if_pos (by omega)]
        · have hdine : dst i ≠ m := by
            intro hdm
            have hdm2 : dst m = i := by rw [← hdm, hinv i hi]
            omega
          rw [if_neg (by omega), if_neg (by omega)]

theorem condSwapLoop_congr {α : Type} (dst1 dst2 : Nat → Nat) (l : List α)
    (h : ∀ j < l.length, dst1 j = dst2 j) :
    ∀ m ≤ l.length, condSwapLoop dst1 l m = condSwapLoop dst2 l m := by
  intro m
  induction m with
  | zero => intro _; rfl
  | succ m ih =>
    intro hm
    rw [condSwapLoop_succ, condSwapLoop_succ, ih (by omega), h m (by omega)]

/-- Zero-extension: reversing `B` bits of a `b`-bit value shifts its `b`-bit
reversal to the top. -/
theorem natBitRev_zext (b B n : Nat) (hbB : b ≤ B) (hn : n < 2 ^ b) :
    natBitRev B n = natBitRev b n * 2 ^ (B - b) := by
  have h : b + (B - b) = B := by omega
  have := natBitRev_split b (B - b) 0 n hn
  rw [h] at this
  simpa [natBitRev_zero] using this

theorem natBitRev_shifted (b B n : Nat) (hbB : b ≤ B) (hn : n < 2 ^ b) :
    natBitRev B n >>> (B - b) = natBitRev b n := by
  rw [natBitRev_zext b B n hbB hn, Nat.shiftRight_eq_div_pow,
    Nat.mul_div_cancel _ (Nat.pos_pow_of_pos _ (by norm_num))]

/-- The small variant is the conditional-swap loop for the `n_power`-bit
reversal permutation. -/
theorem reverse_index_bits_in_place_small_eq {α : Type} (arr : List α) (k : Nat)
    (hk : k ≤ 6) (hlen : arr.length = 2 ^ k) :
    reverse_index_bits_in_place_small arr k = condSwapLoop (natBitRev k) arr arr.length := by
  have h1 : reverse_index_bits_in_place_small arr k =
      condSwapLoop (fun src => BIT_REVERSE_6BIT.getD src 0 >>> (6 - k)) arr arr.length := rfl
  rw [h1]
  refine condSwapLoop_congr _ _ _ ?_ arr.length le_rfl
  intro j hj
  have hj2 : j < 2 ^ k := hlen ▸ hj
  have hj64 : j < 64 := lt_of_lt_of_le hj2 (Nat.pow_le_pow_right (by norm_num) hk)
  rw [BIT_REVERSE_6BIT_spec j hj64, natBitRev_shifted k 6 j hk hj2]

theorem foldlRange_succ {α : Type} (f : α → Nat → α) (a : α) (n : Nat) :
    (List.range (n + 1)).foldl f a = f ((List.range n).foldl f a) n := by
  rw [List.range_succ, List.foldl_append]
  rfl

theorem foldlRange_congr {α : Type} (f g : α → Nat → α) (n : Nat)
    (h : ∀ a t, t < n → f a t = g a t) :
    ∀ a, (List.range n).foldl f a = (List.range n).foldl g a := by
  induction n with
  | zero => intro a; rfl
  | succ n ih =>
    intro a
    rw [foldlRange_succ, foldlRange_succ, ih (fun a t ht => h a t (by omega)),
      h _ n (by omega)]

theorem condSwapLoop_add {α : Type} (dst : Nat → Nat) (l : List α) (m s : Nat) :
    condSwapLoop dst l (m + s) =
      (List.range s).foldl
        (fun a t => if m + t < dst (m + t) then listSwap a (m + t) (dst (m + t)) else a)
        (condSwapLoop dst l m) := by
  unfold condSwapLoop
  rw [List.range_add, List.foldl_append, List.foldl_map]

/-- Destination-index arithmetic of the chunked variant: the assembled
destination is the `n_power`-bit reversal of the assembled source. -/
theorem large_dst_eq (k c t : Nat) (hk : 7 ≤ k) (hk64 : k ≤ 64)
    (hc : c < 2 ^ (k - 6)) (ht : t < 64) :
    BIT_REVERSE_6BIT.getD t 0 <<< (k - 6) + natBitRev 64 c >>> (64 - (k - 6)) =
      natBitRev k (c * 64 + t) := by
  have h1 : natBitRev 64 c >>> (64 - (k - 6)) = natBitRev (k - 6) c :=
    natBitRev_shifted (k - 6) 64 c (by omega) hc
  have h2 : BIT_REVERSE_6BIT.getD t 0 = natBitRev 6 t := BIT_REVERSE_6BIT_spec t ht
  have h3 : (6 : Nat) + (k - 6) = k := by omega
  have h4 : natBitRev (6 + (k - 6)) (c * 2 ^ 6 + t) =
      natBitRev 6 t * 2 ^ (k - 6) + natBitRev (k - 6) c :=
    natBitRev_split 6 (k - 6) c t (by omega)
  rw [h3] at h4
  rw [h1, h2, Nat.shiftLeft_eq, ← h4]
  norm_num

/-- The chunked variant is the conditional-swap loop for the `n_power`-bit
reversal permutation. -/
theorem reverse_index_bits_in_place_large_eq {α : Type} (arr : List α) (k : Nat)
    (hk : 7 ≤ k) (hk64 : k ≤ 64) (hlen : arr.length = 2 ^ k) :
    reverse_index_bits_in_place_large arr k = condSwapLoop (natBitRev k) arr arr.length := by
  have hchunks : arr.length >>> 6 = 2 ^ (k - 6) := by
    rw [hlen, Nat.shiftRight_eq_div_pow, Nat.pow_div (by omega) (by norm_num)]
  have hmain : ∀ c ≤ 2 ^ (k - 6),
      (List.range c).foldl
        (fun a src_chunk =>
          let src_hi := src_chunk <<< 6
          let dst_lo := natBitRev 64 src_chunk >>> (64 - (k - 6))
          (List.range 64).foldl
            (fun a2 src_lo =>
              let dst_hi := BIT_REVERSE_6BIT.getD src_lo 0 <<< (k - 6)
              let src := src_hi + src_lo
              let dst := dst_hi + dst_lo
              if src < dst then listSwap a2 src dst else a2) a) arr =
      condSwapLoop (natBitRev k) arr (c * 64) := by
    intro c
    induction c with
    | zero => intro _; rfl
    | succ c ih =>
      intro hc
      rw [foldlRange_succ, ih (by omega)]
      have hstep : (c + 1) * 64 = c * 64 + 64 := by ring
      rw [hstep, condSwapLoop_add]
      refine foldlRange_congr _ _ 64 ?_ _
      intro a t ht
      simp only [Nat.shiftLeft_eq]
      have hdst : BIT_REVERSE_6BIT.getD t 0 * 2 ^ (k - 6) + natBitRev 64 c >>> (64 - (k - 6)) =
          natBitRev k (c * 64 + t) := by
        have := large_dst_eq k c t hk hk64 (by omega) ht
        rwa [Nat.shiftLeft_eq] at this
      rw [hdst]
  have := hmain (2 ^ (k - 6)) le_rfl
  unfold reverse_index_bits_in_place_large
  rw [hchunks, this]
  have hlen2 : 2 ^ (k - 6) * 64 = arr.length := by
    rw [hlen]
    have h : (2 : Nat) ^ (k - 6) * 64 = 2 ^ (k - 6) * 2 ^ 6 := by norm_num
    rw [h, ← pow_add]
    congr 1
    omega
  rw [hlen2]

/-- Dispatch lemma: on a power-of-two length, `reverse_index_bits_in_place` is
the conditional-swap loop of the bit-reversal permutation, whichever variant
runs. -/
theorem reverse_index_bits_in_place_eq {α : Type} (arr : List α) (k : Nat)
    (hlen : arr.length = 2 ^ k) (hk64 : k ≤ 64) :
    reverse_index_bits_in_place arr = condSwapLoop (natBitRev k) arr arr.length := by
  unfold reverse_index_bits_in_place
  have hpow : log2_strict arr.length = k := by
    rw [hlen]
    exact Nat.log2_two_pow
  simp only [hpow]
  by_cases hk : k ≤ 6
  · rw [if_pos hk]
    exact reverse_index_bits_in_place_small_eq arr k hk hlen
  · rw [if_neg hk]
    exact reverse_index_bits_in_place_large_eq arr k (by omega) hk64 hlen

theorem reverse_index_bits_in_place_length {α : Type} (arr : List α) (k : Nat)
    (hlen : arr.length = 2 ^ k) (hk64 : k ≤ 64) :
    (reverse_index_bits_in_place arr).length = arr.length := by
  rw [reverse_index_bits_in_place_eq arr k hlen hk64]
  exact condSwapLoop_length _ _ _

theorem reverse_index_bits_in_place_getD {α : Type} (arr : List α) (k : Nat)
    (hlen : arr.length = 2 ^ k) (hk64 : k ≤ 64) (d : α) (i : Nat) (hi : i < arr.length) :
    (reverse_index_bits_in_place arr).getD i d = arr.getD (natBitRev k i) d := by
  rw [reverse_index_bits_in_place_eq arr k hlen hk64]
  have hrange : ∀ j < arr.length, natBitRev k j < arr.length := by
    intro j _
    rw [hlen]
    exact natBitRev_lt k j
  have hinv : ∀ j < arr.length, natBitRev k (natBitRev k j) = j := by
    intro j hj
    exact natBitRev_natBitRev k j (hlen ▸ hj)
  rw [condSwapLoop_getD (natBitRev k) arr d hrange hinv arr.length le_rfl i hi,
    if_pos (by have := Nat.min_le_left i (natBitRev k i); omega)]



/-- C10: for every vector whose length is a power of two `2^k` (with `k ≤ 64`,
as indices are `usize`), `reverse_index_bits_in_place` — through whichever of
its two optimized variants the dispatch selects — applies exactly the
permutation taking the element at index `reverse_bits i k` to index `i`; it
equals the naive conditional-swap loop that swaps `src` with
`reverse_bits src k` whenever `src < dst`; and applying it twice restores the
original vector. -/
theorem c10_reverse_index_bits_in_place {α : Type} (arr : List α) (d : α) (k : Nat)
    (hlen : arr.length = 2 ^ k) (hk64 : k ≤ 64) :
    (∀ i < arr.length,
        (reverse_index_bits_in_place arr).getD i d = arr.getD (reverse_bits i k) d)
    ∧ reverse_index_bits_in_place arr =
        condSwapLoop (fun src => reverse_bits src k) arr arr.length
    ∧ reverse_index_bits_in_place (reverse_index_bits_in_place arr) = arr := by
  have hrevs : ∀ i < arr.length, reverse_bits i k = natBitRev k i := by
    intro i hi
    exact reverse_bits_eq i k hk64 (hlen ▸ hi)
  refine ⟨?_, ?_, ?_⟩
  · intro i hi
    rw [hrevs i hi]
    exact reverse_index_bits_in_place_getD arr k hlen hk64 d i hi
  · rw [reverse_index_bits_in_place_eq arr k hlen hk64]
    exact (condSwapLoop_congr _ _ arr (fun j hj => (hrevs j hj).symm) arr.length le_rfl)
  · have hlen1 : (reverse_index_bits_in_place arr).length = arr.length :=
      reverse_index_bits_in_place_length arr k hlen hk64
    have hlen1' : (reverse_index_bits_in_place arr).length = 2 ^ k := by rw [hlen1, hlen]
    have hlen2 : (reverse_index_bits_in_place (reverse_index_bits_in_place arr)).length =
        arr.length := by
      rw [reverse_index_bits_in_place_length _ k hlen1' hk64, hlen1]
    refine List.ext_getElem hlen2 ?_
    intro i hi1 hi2
    have hi : i < arr.length := hi2
    have hgd : ∀ (l : List α) (p : Nat) (hp : p < l.length), l[p] = l.getD p d := by
      intro l p hp
      rw [List.getD_eq_getElem l d hp]
    rw [hgd _ _ hi1, hgd _ _ hi2,
      reverse_index_bits_in_place_getD _ k hlen1' hk64 d i (by omega),
      reverse_index_bits_in_place_getD arr k hlen hk64 d (natBitRev k i)
        (by rw [hlen]; exact natBitRev_lt k i),
      natBitRev_natBitRev k i (hlen ▸ hi)]

/-- Closed-form witness for `c10_reverse_index_bits_in_place` at a concrete
length-4 vector. -/
theorem c10_witness :
    (([10, 20, 30, 40] : List Nat).length = 2 ^ 2) ∧
    ((∀ i < ([10, 20, 30, 40] : List Nat).length,
        (reverse_index_bits_in_place ([10, 20, 30, 40] : List Nat)).getD i 0 =
          ([10, 20, 30, 40] : List Nat).getD (reverse_bits i 2) 0)
    ∧ reverse_index_bits_in_place ([10, 20, 30, 40] : List Nat) =
        condSwapLoop (fun src => reverse_bits src 2) ([10, 20, 30, 40] : List Nat)
          ([10, 20, 30, 40] : List Nat).length
    ∧ reverse_index_bits_in_place
        (reverse_index_bits_in_place ([10, 20, 30, 40] : List Nat)) =
          ([10, 20, 30, 40] : List Nat)) :=
  ⟨by decide, c10_reverse_index_bits_in_place [10, 20, 30, 40] 0 2 (by decide) (by decide)⟩

/-- C7: `fri_verify_proof_of_work` accepts exactly when the canonical 64-bit
encoding of the response has at least
`proof_of_work_bits + (64 - field_order_bits)` leading zero bits; one leading
zero below the threshold is rejected, meeting it exactly is accepted. -/
theorem c7_fri_verify_proof_of_work (resp field_order_bits : Nat) (config : FriConfig) :
    (fri_verify_proof_of_work resp field_order_bits config = Except.ok () ↔
      config.proof_of_work_bits + (64 - field_order_bits) ≤ leading_zeros_u64 resp)
    ∧ (leading_zeros_u64 resp + 1 = config.proof_of_work_bits + (64 - field_order_bits) →
        fri_verify_proof_of_work resp field_order_bits config =
          Except.error "Invalid proof of work witness.")
    ∧ (leading_zeros_u64 resp = config.proof_of_work_bits + (64 - field_order_bits) →
        fri_verify_proof_of_work resp field_order_bits config = Except.ok ()) := by
  unfold fri_verify_proof_of_work
  refine ⟨?_, ?_, ?_⟩
  · split
    · simpa
    · constructor
      · intro h
        simp at h
      · intro h
        omega
  · intro h
    rw [if_neg (by omega)]
  · intro h
    rw [if_pos (by omega)]

/-- Closed-form witness for `c7_fri_verify_proof_of_work`: with a threshold of
2 leading-zero bits, the response `2^61` (exactly 2 leading zeros) is accepted
and `2^62` (1 leading zero) is rejected. -/
theorem c7_witness :
    leading_zeros_u64 (2 ^ 61) = 2 + (64 - 64)
    ∧ fri_verify_proof_of_work (2 ^ 61) 64 ⟨1, 0, 2, 0⟩ = Except.ok ()
    ∧ leading_zeros_u64 (2 ^ 62) + 1 = 2 + (64 - 64)
    ∧ fri_verify_proof_of_work (2 ^ 62) 64 ⟨1, 0, 2, 0⟩ =
        Except.error "Invalid proof of work witness." :=
  ⟨by decide, (c7_fri_verify_proof_of_work (2 ^ 61) 64 ⟨1, 0, 2, 0⟩).2.2 (by decide),
   by decide, (c7_fri_verify_proof_of_work (2 ^ 62) 64 ⟨1, 0, 2, 0⟩).2.1 (by decide)⟩

/-- C8: a proof whose number of query rounds differs from the configured count
is rejected with the shape error, and the result is the same for every Merkle
oracle, every proof-of-work response and every tuple of challenges — the shape
check runs before any cryptographic check and consumes nothing else. -/
theorem c8_shape_mismatch_rejected_first {F E Cap MProof : Type} [Field F] [Field E]
    [DecidableEq E] (emb : F →+* E) (c : FieldConfig F)
    (proof : FriProof F E Cap MProof) (params : FriParams)
    (hmm : proof.query_round_proofs.length ≠ params.config.num_query_rounds) :
    ∀ (mverify : List F → Nat → Cap → MProof → Bool) (flat : List E → List F)
      (rIndex field_order_bits : Nat) (inst : FriInstanceInfo E)
      (openings : FriOpenings E) (challenges : FriChallenges E)
      (initial_merkle_caps : List Cap),
      verify_fri_proof emb c mverify flat rIndex field_order_bits inst openings
        challenges initial_merkle_caps proof params =
          Except.error "shape mismatch" := by
  intro mverify flat rIndex field_order_bits inst openings challenges initial_merkle_caps
  unfold verify_fri_proof validate_fri_proof_shape
  rw [if_neg (fun h => hmm h.1)]

instance : Fact (Nat.Prime 17) := ⟨by norm_num⟩

/-- Closed-form witness for `c8_shape_mismatch_rejected_first`: a proof with
zero query rounds against a configuration demanding one. -/
theorem c8_witness :
    ((FriProof.mk [] [] ⟨[]⟩ 0 :
        FriProof (ZMod 17) (ZMod 17) Unit Unit).query_round_proofs.length ≠
      (FriParams.mk ⟨1, 0, 0, 1⟩ false 1 [] : FriParams).config.num_query_rounds)
    ∧ verify_fri_proof (RingHom.id (ZMod 17)) ⟨3, 3, 4⟩ (fun _ _ _ _ => true)
        (fun _ => []) 4 5 ⟨[], []⟩ ⟨[]⟩ ⟨0, [], 0, []⟩ []
        (FriProof.mk [] [] ⟨[]⟩ 0 : FriProof (ZMod 17) (ZMod 17) Unit Unit)
        (FriParams.mk ⟨1, 0, 0, 1⟩ false 1 []) =
          Except.error "shape mismatch" :=
  ⟨by decide,
   c8_shape_mismatch_rejected_first (RingHom.id (ZMod 17)) ⟨3, 3, 4⟩
     (FriProof.mk [] [] ⟨[]⟩ 0) (FriParams.mk ⟨1, 0, 0, 1⟩ false 1 []) (by decide)
     (fun _ _ _ _ => true) (fun _ => []) 4 5 ⟨[], []⟩ ⟨[]⟩ ⟨0, [], 0, []⟩ []⟩

section QueryLoop

variable {F E Cap MProof : Type} [Field F] [Field E] [DecidableEq E]
variable (emb : F →+* E) (c : FieldConfig F)
variable (mverify : List F → Nat → Cap → MProof → Bool) (flat : List E → List F)

/-- Inversion for a successful folding step: the consistency check at the low
`arity_bits` bits of the index held, the layer Merkle proof at the high bits
verified, and the state advanced as the source describes. -/
theorem fri_query_step_ok_iff (beta : E) (cap : Cap) (s : FriQueryState F E)
    (arity_bits : Nat) (step : FriQueryStep E MProof) (r : FriQueryState F E) :
    fri_query_step emb c mverify flat beta cap s arity_bits step = Except.ok r ↔
      step.evals.getD (s.x_index % 2 ^ arity_bits) 0 = s.old_eval
      ∧ mverify (flat step.evals) (s.x_index >>> arity_bits) cap step.merkle_proof = true
      ∧ r = ⟨s.x_index >>> arity_bits, exp_power_of_2 s.subgroup_x arity_bits,
          compute_evaluation emb c s.subgroup_x (s.x_index % 2 ^ arity_bits)
            arity_bits step.evals beta⟩ := by
  unfold fri_query_step
  simp only [Nat.and_pow_two_sub_one_eq_mod]
  split
  · split
    · constructor
      · intro h
        refine ⟨by assumption, by assumption, ?_⟩
        cases h
        rfl
      · intro ⟨_, _, hr⟩
        rw [hr]
    · constructor
      · intro h
        cases h
      · intro ⟨_, hm, _⟩
        exact absurd hm (by assumption)
  · constructor
    · intro h
      cases h
    · intro ⟨he, _, _⟩
      exact absurd he (by assumption)

/-- A failing consistency check is a hard reject of the step. -/
theorem fri_query_step_mismatch (beta : E) (cap : Cap) (s : FriQueryState F E)
    (arity_bits : Nat) (step : FriQueryStep E MProof)
    (h : step.evals.getD (s.x_index % 2 ^ arity_bits) 0 ≠ s.old_eval) :
    fri_query_step emb c mverify flat beta cap s arity_bits step =
      Except.error "FRI consistency check failed" := by
  unfold fri_query_step
  simp only [Nat.and_pow_two_sub_one_eq_mod]
  rw [if_neg h]

/-- The folding loop splits along list concatenation. -/
theorem fri_query_loop_append (L2 : List (Nat × FriQueryStep E MProof × E × Cap)) :
    ∀ (L1 : List (Nat × FriQueryStep E MProof × E × Cap)) (s : FriQueryState F E),
      fri_query_loop emb c mverify flat s (L1 ++ L2) =
        match fri_query_loop emb c mverify flat s L1 with
        | Except.ok s' => fri_query_loop emb c mverify flat s' L2
        | Except.error e => Except.error e := by
  intro L1
  induction L1 with
  | nil => intro s; rfl
  | cons hd tl ih =>
    intro s
    obtain ⟨ab, step, beta, cap⟩ := hd
    show fri_query_loop emb c mverify flat s ((ab, step, beta, cap) :: (tl ++ L2)) = _
    rw [fri_query_loop, fri_query_loop]
    cases fri_query_step emb c mverify flat beta cap s ab step with
    | ok s' => exact ih s'
    | error e => rfl

/-- Closed form of the walk state after a successful loop: the domain index is
shifted down by the total arity bits and the domain point is raised to the
corresponding power of two. -/
theorem fri_query_loop_ok_state :
    ∀ (L : List (Nat × FriQueryStep E MProof × E × Cap)) (s st : FriQueryState F E),
      fri_query_loop emb c mverify flat s L = Except.ok st →
        st.x_index = s.x_index >>> (L.map (fun t => t.1)).sum
        ∧ st.subgroup_x = s.subgroup_x ^ 2 ^ (L.map (fun t => t.1)).sum := by
  intro L
  induction L with
  | nil =>
    intro s st h
    cases h
    simp
  | cons hd tl ih =>
    intro s st h
    obtain ⟨ab, step, beta, cap⟩ := hd
    rw [fri_query_loop] at h
    rcases hs : fri_query_step emb c mverify flat beta cap s ab step with e | s'
    · rw [hs] at h
      cases h
    · rw [hs] at h
      obtain ⟨_, _, hr⟩ := (fri_query_step_ok_iff emb c mverify flat
        beta cap s ab step s').1 hs
      obtain ⟨hx, hsx⟩ := ih s' st h
      subst hr
      refine ⟨?_, ?_⟩
      · rw [hx]
        simp only [List.map_cons, List.sum_cons]
        rw [Nat.shiftRight_add]
      · rw [hsx]
        simp only [List.map_cons, List.sum_cons, exp_power_of_2_eq]
        rw [← pow_mul, ← pow_add]

/-- Unfolding of `fri_verifier_query_round` once the initial Merkle checks
pass: the walk runs from the reconstructed domain point and combined opening,
and the final-polynomial check decides the result. -/
theorem fri_verifier_query_round_eq (rIndex : Nat) (inst : FriInstanceInfo E)
    (challenges : FriChallenges E) (precomputed_reduced_evals : List E)
    (initial_merkle_caps : List Cap) (proof : FriProof F E Cap MProof)
    (x_index n : Nat) (round_proof : FriQueryRound F E MProof) (params : FriParams)
    (hinit : fri_verify_initial_proof mverify x_index round_proof.initial_trees_proof
      initial_merkle_caps = Except.ok ()) :
    fri_verifier_query_round emb c mverify flat rIndex inst challenges
        precomputed_reduced_evals initial_merkle_caps proof x_index n round_proof
        params =
      match fri_query_loop emb c mverify flat
          (fri_round_state0 emb c rIndex inst challenges precomputed_reduced_evals
            x_index n round_proof params)
          (fri_round_steps challenges proof round_proof params) with
      | Except.error e => Except.error e
      | Except.ok st =>
        if proof.final_poly.eval (emb st.subgroup_x) = st.old_eval then
          Except.ok ()
        else
          Except.error "Final polynomial evaluation is invalid." := by
  unfold fri_verifier_query_round
  rw [hinit]

/-- `reverse_bits` always yields a value below `2^64`. -/
theorem reverse_bits_lt_two_pow_64 (n b : Nat) : reverse_bits n b < 2 ^ 64 := by
  unfold reverse_bits
  calc natBitRev 64 n >>> ((64 - b) % 64) ≤ natBitRev 64 n := by
        rw [Nat.shiftRight_eq_div_pow]
        exact Nat.div_le_self _ _
  _ < 2 ^ 64 := natBitRev_lt 64 n

/-- The initializer is the generator times the domain root of unity raised to
the bit-reversed index. -/
theorem fri_round_subgroup_x_eq (x_index n : Nat) :
    fri_round_subgroup_x c x_index n =
      c.multiplicative_group_generator *
        primitive_root_of_unity c (log2_strict n) ^
          reverse_bits x_index (log2_strict n) := by
  unfold fri_round_subgroup_x
  rw [exp_u64_eq _ _ (reverse_bits_lt_two_pow_64 _ _)]

/-- A successful round loop implies every round in the list succeeded. -/
theorem verify_rounds_loop_ok_all (rIndex : Nat) (inst : FriInstanceInfo E)
    (challenges : FriChallenges E) (precomputed_reduced_evals : List E)
    (initial_merkle_caps : List Cap) (proof : FriProof F E Cap MProof)
    (n : Nat) (params : FriParams) :
    ∀ (L : List (Nat × FriQueryRound F E MProof)),
      verify_rounds_loop emb c mverify flat rIndex inst challenges
        precomputed_reduced_evals initial_merkle_caps proof n params L =
          Except.ok () →
      ∀ p ∈ L, fri_verifier_query_round emb c mverify flat rIndex inst challenges
        precomputed_reduced_evals initial_merkle_caps proof p.1 n p.2 params =
          Except.ok () := by
  intro L
  induction L with
  | nil => intro _ p hp; cases hp
  | cons hd tl ih =>
    intro h p hp
    rw [verify_rounds_loop] at h
    rcases hr : fri_verifier_query_round emb c mverify flat rIndex inst challenges
        precomputed_reduced_evals initial_merkle_caps proof hd.1 n hd.2 params
      with e | u
    · rw [hr] at h
      cases h
    · rcases List.mem_cons.1 hp with rfl | hp
      · exact hr
      · rw [hr] at h
        exact ih h p hp

/-- If `verify_fri_proof` accepts then the per-round loop accepted, run with
the precomputed reduced openings and the LDE size. -/
theorem verify_fri_proof_ok_rounds (rIndex field_order_bits : Nat)
    (inst : FriInstanceInfo E) (openings : FriOpenings E)
    (challenges : FriChallenges E) (initial_merkle_caps : List Cap)
    (proof : FriProof F E Cap MProof) (params : FriParams)
    (h : verify_fri_proof emb c mverify flat rIndex field_order_bits inst openings
      challenges initial_merkle_caps proof params = Except.ok ()) :
    verify_rounds_loop emb c mverify flat rIndex inst challenges
      (PrecomputedReducedOpenings.from_os_and_alpha openings challenges.fri_alpha
        params.«hiding»)
      initial_merkle_caps proof params.lde_size params
      (challenges.fri_query_indices.zip proof.query_round_proofs) =
        Except.ok () := by
  unfold verify_fri_proof at h
  rcases hv : validate_fri_proof_shape proof params with e | u
  · rw [hv] at h
    cases h
  · rw [hv] at h
    rcases hw : fri_verify_proof_of_work challenges.fri_pow_response field_order_bits
        params.config with e | u2
    · rw [hw] at h
      cases h
    · rw [hw] at h
      by_cases hc : params.config.num_query_rounds = proof.query_round_proofs.length
      · simp only [if_pos hc] at h
        exact h
      · simp only [if_neg hc] at h
        cases h

/-- C1: along the folding walk of a query round, the running domain index is
split into `coset_index = index >> arity_bits` (the high bits) and
`index_within_coset = index & (2^arity_bits - 1)` (the low bits), and at the
state `s'` entering any step, a mismatch
`evals[index_within_coset] ≠ old_eval` makes the whole round return the
consistency error — a hard reject — while acceptance of the round forces
`evals[index_within_coset] = old_eval` at that step. -/
theorem c1_folding_consistency_check (rIndex : Nat) (inst : FriInstanceInfo E)
    (challenges : FriChallenges E) (precomputed_reduced_evals : List E)
    (initial_merkle_caps : List Cap) (proof : FriProof F E Cap MProof)
    (x_index n : Nat) (round_proof : FriQueryRound F E MProof) (params : FriParams)
    (hinit : fri_verify_initial_proof mverify x_index round_proof.initial_trees_proof
      initial_merkle_caps = Except.ok ())
    (L1 L2 : List (Nat × FriQueryStep E MProof × E × Cap)) (ab : Nat)
    (step : FriQueryStep E MProof) (beta : E) (cap : Cap) (s' : FriQueryState F E)
    (hdecomp : fri_round_steps challenges proof round_proof params =
      L1 ++ (ab, step, beta, cap) :: L2)
    (hpre : fri_query_loop emb c mverify flat
      (fri_round_state0 emb c rIndex inst challenges precomputed_reduced_evals
        x_index n round_proof params) L1 = Except.ok s') :
    (s'.x_index &&& (2 ^ ab - 1) = s'.x_index % 2 ^ ab
      ∧ s'.x_index >>> ab = s'.x_index / 2 ^ ab)
    ∧ (step.evals.getD (s'.x_index % 2 ^ ab) 0 ≠ s'.old_eval →
        fri_verifier_query_round emb c mverify flat rIndex inst challenges
          precomputed_reduced_evals initial_merkle_caps proof x_index n round_proof
          params = Except.error "FRI consistency check failed")
    ∧ (fri_verifier_query_round emb c mverify flat rIndex inst challenges
          precomputed_reduced_evals initial_merkle_caps proof x_index n round_proof
          params = Except.ok () →
        step.evals.getD (s'.x_index % 2 ^ ab) 0 = s'.old_eval) := by
  refine ⟨⟨Nat.and_pow_two_sub_one_eq_mod _ _, Nat.shiftRight_eq_div_pow _ _⟩, ?_, ?_⟩
  · intro hne
    rw [fri_verifier_query_round_eq emb c mverify flat rIndex inst challenges
      precomputed_reduced_evals initial_merkle_caps proof x_index n round_proof
      params hinit, hdecomp, fri_query_loop_append, hpre]
    show (match fri_query_loop emb c mverify flat s' ((ab, step, beta, cap) :: L2) with
      | Except.error e => Except.error e
      | Except.ok st =>
        if proof.final_poly.eval (emb st.subgroup_x) = st.old_eval then
          Except.ok ()
        else
          Except.error "Final polynomial evaluation is invalid.") = _
    rw [fri_query_loop, fri_query_step_mismatch emb c mverify flat beta cap s' ab
      step hne]
  · intro hok
    rw [fri_verifier_query_round_eq emb c mverify flat rIndex inst challenges
      precomputed_reduced_evals initial_merkle_caps proof x_index n round_proof
      params hinit, hdecomp, fri_query_loop_append, hpre] at hok
    rw [show (match Except.ok s' with
        | Except.ok s'2 => fri_query_loop emb c mverify flat s'2
            ((ab, step, beta, cap) :: L2)
        | Except.error e => (Except.error e : Except String (FriQueryState F E))) =
      fri_query_loop emb c mverify flat s' ((ab, step, beta, cap) :: L2) from rfl,
      fri_query_loop] at hok
    rcases hs : fri_query_step emb c mverify flat beta cap s' ab step with e | s''
    · rw [hs] at hok
      cases hok
    · exact ((fri_query_step_ok_iff emb c mverify flat beta cap s' ab step s'').1 hs).1

/-- C3: once the walk of a query round has consumed every folding step, the
round is accepted exactly when the prover-supplied final polynomial evaluated
at the terminal `subgroup_x` (embedded into the extension field) equals the
terminal running evaluation; a mismatch produces the final-polynomial error,
and `verify_fri_proof` accepts only if every query round accepted. -/
theorem c3_final_polynomial_check (rIndex : Nat) (inst : FriInstanceInfo E)
    (challenges : FriChallenges E) (precomputed_reduced_evals : List E)
    (initial_merkle_caps : List Cap) (proof : FriProof F E Cap MProof)
    (x_index n : Nat) (round_proof : FriQueryRound F E MProof) (params : FriParams)
    (hinit : fri_verify_initial_proof mverify x_index round_proof.initial_trees_proof
      initial_merkle_caps = Except.ok ()) :
    (fri_verifier_query_round emb c mverify flat rIndex inst challenges
        precomputed_reduced_evals initial_merkle_caps proof x_index n round_proof
        params = Except.ok () ↔
      ∃ st, fri_query_loop emb c mverify flat
          (fri_round_state0 emb c rIndex inst challenges precomputed_reduced_evals
            x_index n round_proof params)
          (fri_round_steps challenges proof round_proof params) = Except.ok st
        ∧ proof.final_poly.eval (emb st.subgroup_x) = st.old_eval)
    ∧ (∀ st, fri_query_loop emb c mverify flat
          (fri_round_state0 emb c rIndex inst challenges precomputed_reduced_evals
            x_index n round_proof params)
          (fri_round_steps challenges proof round_proof params) = Except.ok st →
        proof.final_poly.eval (emb st.subgroup_x) ≠ st.old_eval →
        fri_verifier_query_round emb c mverify flat rIndex inst challenges
          precomputed_reduced_evals initial_merkle_caps proof x_index n round_proof
          params = Except.error "Final polynomial evaluation is invalid.")
    ∧ (∀ (field_order_bits : Nat) (openings : FriOpenings E),
        verify_fri_proof emb c mverify flat rIndex field_order_bits inst openings
          challenges initial_merkle_caps proof params = Except.ok () →
        ∀ p ∈ challenges.fri_query_indices.zip proof.query_round_proofs,
          fri_verifier_query_round emb c mverify flat rIndex inst challenges
            (PrecomputedReducedOpenings.from_os_and_alpha openings
              challenges.fri_alpha params.«hiding»)
            initial_merkle_caps proof p.1 params.lde_size p.2 params =
              Except.ok ()) := by
  refine ⟨?_, ?_, ?_⟩
  · rw [fri_verifier_query_round_eq emb c mverify flat rIndex inst challenges
      precomputed_reduced_evals initial_merkle_caps proof x_index n round_proof
      params hinit]
    rcases hl : fri_query_loop emb c mverify flat
        (fri_round_state0 emb c rIndex inst challenges precomputed_reduced_evals
          x_index n round_proof params)
        (fri_round_steps challenges proof round_proof params) with e | st
    · constructor
      · intro h
        cases h
      · intro ⟨st, hst, _⟩
        cases hst
    · constructor
      · intro h
        have h' : (if proof.final_poly.eval (emb st.subgroup_x) = st.old_eval then
            (Except.ok () : Except String Unit)
          else Except.error "Final polynomial evaluation is invalid.") =
            Except.ok () := h
        refine ⟨st, rfl, ?_⟩
        by_contra hne
        rw [if_neg hne] at h'
        cases h'
      · intro ⟨st', hst', heq⟩
        injection hst' with h2
        subst h2
        show (if proof.final_poly.eval (emb st.subgroup_x) = st.old_eval then
            (Except.ok () : Except String Unit)
          else Except.error "Final polynomial evaluation is invalid.") =
            Except.ok ()
        rw [if_pos heq]
  · intro st hst hne
    rw [fri_verifier_query_round_eq emb c mverify flat rIndex inst challenges
      precomputed_reduced_evals initial_merkle_caps proof x_index n round_proof
      params hinit, hst]
    show (if proof.final_poly.eval (emb st.subgroup_x) = st.old_eval then
        Except.ok ()
      else Except.error "Final polynomial evaluation is invalid.") = _
    rw [if_neg hne]
  · intro field_order_bits openings h p hp
    exact verify_rounds_loop_ok_all emb c mverify flat rIndex inst challenges _
      initial_merkle_caps proof params.lde_size params _
      (verify_fri_proof_ok_rounds emb c mverify flat rIndex field_order_bits inst
        openings challenges initial_merkle_caps proof params h) p hp

/-- C9: throughout a query round's walk the domain point stays in the base
field `F`: it starts at
`MULTIPLICATIVE_GROUP_GENERATOR * root_of_unity(log n)^(reverse_bits x_index)`,
after any walk segment with total arity bits `t` it equals the start raised to
`2^t` (one squaring chain per step), and it is embedded into the extension
field only in the final-polynomial comparison. -/
theorem c9_subgroup_x_stays_base_field (rIndex : Nat) (inst : FriInstanceInfo E)
    (challenges : FriChallenges E) (precomputed_reduced_evals : List E)
    (initial_merkle_caps : List Cap) (proof : FriProof F E Cap MProof)
    (x_index n : Nat) (round_proof : FriQueryRound F E MProof) (params : FriParams)
    (hinit : fri_verify_initial_proof mverify x_index round_proof.initial_trees_proof
      initial_merkle_caps = Except.ok ()) :
    (∀ (L1 L2 : List (Nat × FriQueryStep E MProof × E × Cap))
        (s' : FriQueryState F E),
      fri_round_steps challenges proof round_proof params = L1 ++ L2 →
      fri_query_loop emb c mverify flat
        (fri_round_state0 emb c rIndex inst challenges precomputed_reduced_evals
          x_index n round_proof params) L1 = Except.ok s' →
      s'.subgroup_x =
        (c.multiplicative_group_generator *
          primitive_root_of_unity c (log2_strict n) ^
            reverse_bits x_index (log2_strict n)) ^
          2 ^ (L1.map (fun t => t.1)).sum
      ∧ s'.x_index = x_index >>> (L1.map (fun t => t.1)).sum)
    ∧ (fri_verifier_query_round emb c mverify flat rIndex inst challenges
          precomputed_reduced_evals initial_merkle_caps proof x_index n round_proof
          params = Except.ok () →
        ∃ st, fri_query_loop emb c mverify flat
            (fri_round_state0 emb c rIndex inst challenges precomputed_reduced_evals
              x_index n round_proof params)
            (fri_round_steps challenges proof round_proof params) = Except.ok st
          ∧ st.subgroup_x =
              (c.multiplicative_group_generator *
                primitive_root_of_unity c (log2_strict n) ^
                  reverse_bits x_index (log2_strict n)) ^
                2 ^ ((fri_round_steps challenges proof round_proof params).map
                  (fun t => t.1)).sum
          ∧ proof.final_poly.eval (emb st.subgroup_x) = st.old_eval) := by
  have hstate : ∀ (L1 : List (Nat × FriQueryStep E MProof × E × Cap))
      (s' : FriQueryState F E),
      fri_query_loop emb c mverify flat
        (fri_round_state0 emb c rIndex inst challenges precomputed_reduced_evals
          x_index n round_proof params) L1 = Except.ok s' →
      s'.subgroup_x =
        (c.multiplicative_group_generator *
          primitive_root_of_unity c (log2_strict n) ^
            reverse_bits x_index (log2_strict n)) ^
          2 ^ (L1.map (fun t => t.1)).sum
      ∧ s'.x_index = x_index >>> (L1.map (fun t => t.1)).sum := by
    intro L1 s' h
    obtain ⟨hx, hsx⟩ := fri_query_loop_ok_state emb c mverify flat L1 _ s' h
    refine ⟨?_, hx⟩
    rw [hsx]
    show (fri_round_state0 emb c rIndex inst challenges precomputed_reduced_evals
      x_index n round_proof params).subgroup_x ^ _ = _
    rw [show (fri_round_state0 emb c rIndex inst challenges precomputed_reduced_evals
      x_index n round_proof params).subgroup_x = fri_round_subgroup_x c x_index n
      from rfl, fri_round_subgroup_x_eq]
  refine ⟨fun L1 L2 s' _ h => hstate L1 s' h, ?_⟩
  intro hok
  rw [(c3_final_polynomial_check emb c mverify flat rIndex inst challenges
    precomputed_reduced_evals initial_merkle_caps proof x_index n round_proof
    params hinit).1] at hok
  obtain ⟨st, hst, heq⟩ := hok
  exact ⟨st, hst, (hstate _ st hst).1, heq⟩

end QueryLoop

/-- Closed-form witness for `c1_folding_consistency_check` at a one-step round
over `ZMod 17` (index 1, domain size 4, arity 2). -/
theorem c1_witness :
    ((1 : Nat) &&& (2 ^ 1 - 1) = 1 % 2 ^ 1 ∧ (1 : Nat) >>> 1 = 1 / 2 ^ 1)
    ∧ (([4, 0] : List (ZMod 17)).getD (1 % 2 ^ 1) 0 ≠ (0 : ZMod 17) →
        fri_verifier_query_round (RingHom.id (ZMod 17)) ⟨3, 3, 4⟩
          (fun _ _ _ _ => true) (fun _ => []) 4 ⟨[], []⟩ ⟨2, [5], 0, [1]⟩ [] [()]
          ⟨[()], [⟨⟨[]⟩, [⟨[4, 0], ()⟩]⟩], ⟨[11]⟩, 0⟩ 1 4 ⟨⟨[]⟩, [⟨[4, 0], ()⟩]⟩
          ⟨⟨1, 0, 0, 1⟩, false, 1, [1]⟩ =
            Except.error "FRI consistency check failed")
    ∧ (fri_verifier_query_round (RingHom.id (ZMod 17)) ⟨3, 3, 4⟩
          (fun _ _ _ _ => true) (fun _ => []) 4 ⟨[], []⟩ ⟨2, [5], 0, [1]⟩ [] [()]
          ⟨[()], [⟨⟨[]⟩, [⟨[4, 0], ()⟩]⟩], ⟨[11]⟩, 0⟩ 1 4 ⟨⟨[]⟩, [⟨[4, 0], ()⟩]⟩
          ⟨⟨1, 0, 0, 1⟩, false, 1, [1]⟩ = Except.ok () →
        ([4, 0] : List (ZMod 17)).getD (1 % 2 ^ 1) 0 = (0 : ZMod 17)) :=
  c1_folding_consistency_check (RingHom.id (ZMod 17)) ⟨3, 3, 4⟩
    (fun _ _ _ _ => true) (fun _ => []) 4 ⟨[], []⟩ ⟨2, [5], 0, [1]⟩ [] [()]
    ⟨[()], [⟨⟨[]⟩, [⟨[4, 0], ()⟩]⟩], ⟨[11]⟩, 0⟩ 1 4 ⟨⟨[]⟩, [⟨[4, 0], ()⟩]⟩
    ⟨⟨1, 0, 0, 1⟩, false, 1, [1]⟩ (by rfl) [] [] 1 ⟨[4, 0], ()⟩ 5 ()
    (fri_round_state0 (RingHom.id (ZMod 17)) ⟨3, 3, 4⟩ 4 ⟨[], []⟩
      ⟨2, [5], 0, [1]⟩ [] 1 4 ⟨⟨[]⟩, [⟨[4, 0], ()⟩]⟩
      ⟨⟨1, 0, 0, 1⟩, false, 1, [1]⟩)
    (by rfl) (by rfl)

/-- Closed-form witness for `c3_final_polynomial_check` at the same concrete
round. -/
theorem c3_witness :
    (fri_verifier_query_round (RingHom.id (ZMod 17)) ⟨3, 3, 4⟩
        (fun _ _ _ _ => true) (fun _ => []) 4 ⟨[], []⟩ ⟨2, [5], 0, [1]⟩ [] [()]
        ⟨[()], [⟨⟨[]⟩, [⟨[4, 0], ()⟩]⟩], ⟨[11]⟩, 0⟩ 1 4 ⟨⟨[]⟩, [⟨[4, 0], ()⟩]⟩
        ⟨⟨1, 0, 0, 1⟩, false, 1, [1]⟩ = Except.ok () ↔
      ∃ st, fri_query_loop (RingHom.id (ZMod 17)) ⟨3, 3, 4⟩
          (fun _ _ _ _ => true) (fun _ => [])
          (fri_round_state0 (RingHom.id (ZMod 17)) ⟨3, 3, 4⟩ 4 ⟨[], []⟩
            ⟨2, [5], 0, [1]⟩ [] 1 4 ⟨⟨[]⟩, [⟨[4, 0], ()⟩]⟩
            ⟨⟨1, 0, 0, 1⟩, false, 1, [1]⟩)
          (fri_round_steps ⟨2, [5], 0, [1]⟩
            ⟨[()], [⟨⟨[]⟩, [⟨[4, 0], ()⟩]⟩], ⟨[11]⟩, 0⟩ ⟨⟨[]⟩, [⟨[4, 0], ()⟩]⟩
            ⟨⟨1, 0, 0, 1⟩, false, 1, [1]⟩) = Except.ok st
        ∧ (PolynomialCoeffs.mk [11] : PolynomialCoeffs (ZMod 17)).eval
            (RingHom.id (ZMod 17) st.subgroup_x) = st.old_eval)
    ∧ (∀ st, fri_query_loop (RingHom.id (ZMod 17)) ⟨3, 3, 4⟩
          (fun _ _ _ _ => true) (fun _ => [])
          (fri_round_state0 (RingHom.id (ZMod 17)) ⟨3, 3, 4⟩ 4 ⟨[], []⟩
            ⟨2, [5], 0, [1]⟩ [] 1 4 ⟨⟨[]⟩, [⟨[4, 0], ()⟩]⟩
            ⟨⟨1, 0, 0, 1⟩, false, 1, [1]⟩)
          (fri_round_steps ⟨2, [5], 0, [1]⟩
            ⟨[()], [⟨⟨[]⟩, [⟨[4, 0], ()⟩]⟩], ⟨[11]⟩, 0⟩ ⟨⟨[]⟩, [⟨[4, 0], ()⟩]⟩
            ⟨⟨1, 0, 0, 1⟩, false, 1, [1]⟩) = Except.ok st →
        (PolynomialCoeffs.mk [11] : PolynomialCoeffs (ZMod 17)).eval
            (RingHom.id (ZMod 17) st.subgroup_x) ≠ st.old_eval →
        fri_verifier_query_round (RingHom.id (ZMod 17)) ⟨3, 3, 4⟩
          (fun _ _ _ _ => true) (fun _ => []) 4 ⟨[], []⟩ ⟨2, [5], 0, [1]⟩ [] [()]
          ⟨[()], [⟨⟨[]⟩, [⟨[4, 0], ()⟩]⟩], ⟨[11]⟩, 0⟩ 1 4 ⟨⟨[]⟩, [⟨[4, 0], ()⟩]⟩
          ⟨⟨1, 0, 0, 1⟩, false, 1, [1]⟩ =
            Except.error "Final polynomial evaluation is invalid.")
    ∧ (∀ (field_order_bits : Nat) (openings : FriOpenings (ZMod 17)),
        verify_fri_proof (RingHom.id (ZMod 17)) ⟨3, 3, 4⟩ (fun _ _ _ _ => true)
          (fun _ => []) 4 field_order_bits ⟨[], []⟩ openings ⟨2, [5], 0, [1]⟩ [()]
          ⟨[()], [⟨⟨[]⟩, [⟨[4, 0], ()⟩]⟩], ⟨[11]⟩, 0⟩
          ⟨⟨1, 0, 0, 1⟩, false, 1, [1]⟩ = Except.ok () →
        ∀ p ∈ ([1] : List Nat).zip
            [(⟨⟨[]⟩, [⟨[4, 0], ()⟩]⟩ : FriQueryRound (ZMod 17) (ZMod 17) Unit)],
          fri_verifier_query_round (RingHom.id (ZMod 17)) ⟨3, 3, 4⟩
            (fun _ _ _ _ => true) (fun _ => []) 4 ⟨[], []⟩ ⟨2, [5], 0, [1]⟩
            (PrecomputedReducedOpenings.from_os_and_alpha openings 2 false) [()]
            ⟨[()], [⟨⟨[]⟩, [⟨[4, 0], ()⟩]⟩], ⟨[11]⟩, 0⟩ p.1
            (FriParams.mk ⟨1, 0, 0, 1⟩ false 1 [1]).lde_size p.2
            ⟨⟨1, 0, 0, 1⟩, false, 1, [1]⟩ = Except.ok ()) :=
  c3_final_polynomial_check (RingHom.id (ZMod 17)) ⟨3, 3, 4⟩
    (fun _ _ _ _ => true) (fun _ => []) 4 ⟨[], []⟩ ⟨2, [5], 0, [1]⟩ [] [()]
    ⟨[()], [⟨⟨[]⟩, [⟨[4, 0], ()⟩]⟩], ⟨[11]⟩, 0⟩ 1 4 ⟨⟨[]⟩, [⟨[4, 0], ()⟩]⟩
    ⟨⟨1, 0, 0, 1⟩, false, 1, [1]⟩ (by rfl)

/-- Closed-form witness for `c9_subgroup_x_stays_base_field` at the same
concrete round. -/
theorem c9_witness :
    (∀ (L1 L2 : List (Nat × FriQueryStep (ZMod 17) Unit × ZMod 17 × Unit))
        (s' : FriQueryState (ZMod 17) (ZMod 17)),
      fri_round_steps ⟨2, [5], 0, [1]⟩
          ⟨[()], [⟨⟨[]⟩, [⟨[4, 0], ()⟩]⟩], ⟨[11]⟩, 0⟩ ⟨⟨[]⟩, [⟨[4, 0], ()⟩]⟩
          ⟨⟨1, 0, 0, 1⟩, false, 1, [1]⟩ = L1 ++ L2 →
      fri_query_loop (RingHom.id (ZMod 17)) ⟨3, 3, 4⟩ (fun _ _ _ _ => true)
        (fun _ => [])
        (fri_round_state0 (RingHom.id (ZMod 17)) ⟨3, 3, 4⟩ 4 ⟨[], []⟩
          ⟨2, [5], 0, [1]⟩ [] 1 4 ⟨⟨[]⟩, [⟨[4, 0], ()⟩]⟩
          ⟨⟨1, 0, 0, 1⟩, false, 1, [1]⟩) L1 = Except.ok s' →
      s'.subgroup_x =
        ((3 : ZMod 17) *
          primitive_root_of_unity (⟨3, 3, 4⟩ : FieldConfig (ZMod 17))
              (log2_strict 4) ^ reverse_bits 1 (log2_strict 4)) ^
          2 ^ (L1.map (fun t => t.1)).sum
      ∧ s'.x_index = 1 >>> (L1.map (fun t => t.1)).sum)
    ∧ (fri_verifier_query_round (RingHom.id (ZMod 17)) ⟨3, 3, 4⟩
          (fun _ _ _ _ => true) (fun _ => []) 4 ⟨[], []⟩ ⟨2, [5], 0, [1]⟩ [] [()]
          ⟨[()], [⟨⟨[]⟩, [⟨[4, 0], ()⟩]⟩], ⟨[11]⟩, 0⟩ 1 4 ⟨⟨[]⟩, [⟨[4, 0], ()⟩]⟩
          ⟨⟨1, 0, 0, 1⟩, false, 1, [1]⟩ = Except.ok () →
        ∃ st, fri_query_loop (RingHom.id (ZMod 17)) ⟨3, 3, 4⟩
            (fun _ _ _ _ => true) (fun _ => [])
            (fri_round_state0 (RingHom.id (ZMod 17)) ⟨3, 3, 4⟩ 4 ⟨[], []⟩
              ⟨2, [5], 0, [1]⟩ [] 1 4 ⟨⟨[]⟩, [⟨[4, 0], ()⟩]⟩
              ⟨⟨1, 0, 0, 1⟩, false, 1, [1]⟩)
            (fri_round_steps ⟨2, [5], 0, [1]⟩
              ⟨[()], [⟨⟨[]⟩, [⟨[4, 0], ()⟩]⟩], ⟨[11]⟩, 0⟩ ⟨⟨[]⟩, [⟨[4, 0], ()⟩]⟩
              ⟨⟨1, 0, 0, 1⟩, false, 1, [1]⟩) = Except.ok st
          ∧ st.subgroup_x =
              ((3 : ZMod 17) *
                primitive_root_of_unity (⟨3, 3, 4⟩ : FieldConfig (ZMod 17))
                    (log2_strict 4) ^ reverse_bits 1 (log2_strict 4)) ^
                2 ^ ((fri_round_steps ⟨2, [5], 0, [1]⟩
                  ⟨[()], [⟨⟨[]⟩, [⟨[4, 0], ()⟩]⟩], ⟨[11]⟩, 0⟩
                  ⟨⟨[]⟩, [⟨[4, 0], ()⟩]⟩ ⟨⟨1, 0, 0, 1⟩, false, 1, [1]⟩).map
                    (fun t => t.1)).sum
          ∧ (PolynomialCoeffs.mk [11] : PolynomialCoeffs (ZMod 17)).eval
              (RingHom.id (ZMod 17) st.subgroup_x) = st.old_eval) :=
  c9_subgroup_x_stays_base_field (RingHom.id (ZMod 17)) ⟨3, 3, 4⟩
    (fun _ _ _ _ => true) (fun _ => []) 4 ⟨[], []⟩ ⟨2, [5], 0, [1]⟩ [] [()]
    ⟨[()], [⟨⟨[]⟩, [⟨[4, 0], ()⟩]⟩], ⟨[11]⟩, 0⟩ 1 4 ⟨⟨[]⟩, [⟨[4, 0], ()⟩]⟩
    ⟨⟨1, 0, 0, 1⟩, false, 1, [1]⟩ (by rfl)

section CombineInitial

variable {F E MProof : Type} [Field F] [Field E]
variable (emb : F →+* E) (rIndex : Nat) (inst : FriInstanceInfo E)
variable (proof : FriInitialTreeProof F MProof) (params : FriParams)

/-- Horner evaluation from the top is the sum of values weighted by successive
powers. -/
theorem horner_foldr (b : E) : ∀ vs : List E,
    vs.foldr (fun v acc => b * acc + v) 0 = reduceSpec b vs := by
  intro vs
  induction vs with
  | nil => simp [reduceSpec]
  | cons v vs ih =>
    show b * (vs.foldr _ 0) + v = _
    rw [ih]
    calc b * reduceSpec b vs + v
        = (∑ i ∈ Finset.range vs.length, vs.getD i 0 * b ^ (i + 1)) + v := by
          rw [reduceSpec, Finset.mul_sum]
          congr 1
          refine Finset.sum_congr rfl fun i _ => by ring
      _ = reduceSpec b (v :: vs) := by
          rw [reduceSpec, List.length_cons, Finset.sum_range_succ']
          simp [List.getD_cons_succ, List.getD_cons_zero]

/-- The modelled `ReducingFactor.reduce` computes `∑ i, v_i * base^i`. -/
theorem reduce_fst (rf : ReducingFactor E) (vs : List E) :
    (rf.reduce vs).1 = reduceSpec rf.base vs := by
  show vs.reverse.foldl (fun acc v => rf.base * acc + v) 0 = _
  rw [List.foldl_reverse]
  exact horner_foldr rf.base vs

theorem count_r_polys_zero (r : Nat) (l : List FriPolynomialInfo)
    (h : ∀ q ∈ l, q.oracle_index ≠ r) :
    (l.map fun q => if q.oracle_index = r then 1 else 0).sum = 0 := by
  induction l with
  | nil => rfl
  | cons hd tl ih =>
    simp only [List.map_cons, List.sum_cons]
    rw [if_neg (h hd (by simp)), ih (fun q hq => h q (by simp [hq]))]

theorem count_r_polys_all (r : Nat) (l : List FriPolynomialInfo)
    (h : ∀ q ∈ l, q.oracle_index = r) :
    (l.map fun q => if q.oracle_index = r then 1 else 0).sum = l.length := by
  induction l with
  | nil => rfl
  | cons hd tl ih =>
    simp only [List.map_cons, List.sum_cons, List.length_cons]
    rw [if_pos (h hd (by simp)), ih (fun q hq => h q (by simp [hq]))]
    omega

theorem count_r_polys_append (r : Nat) (qs rs : List FriPolynomialInfo)
    (hqs : ∀ q ∈ qs, q.oracle_index ≠ r) (hrs : ∀ q ∈ rs, q.oracle_index = r) :
    ((qs ++ rs).map fun q => if q.oracle_index = r then 1 else 0).sum = rs.length := by
  rw [List.map_append, List.sum_append, count_r_polys_zero r qs hqs,
    count_r_polys_all r rs hrs, Nat.zero_add]

/-- From index 1 on, the accumulation loop is the plain specification fold:
the zero-knowledge special case only concerns the first batch. -/
theorem fri_combine_initial_loop_tail (sx alpha : E) :
    ∀ (l : List (FriBatchInfo E × E)) (idx : Nat), 1 ≤ idx → ∀ sum : E,
      fri_combine_initial_loop emb rIndex inst proof params sx ⟨alpha, 0⟩ sum idx l =
        l.foldl (combine_batch_spec emb inst proof params alpha sx) sum := by
  intro l
  induction l with
  | nil => intro idx _ sum; rfl
  | cons bp rest ih =>
    intro idx hidx sum
    obtain ⟨batch, ro⟩ := bp
    have hidx0 : ¬ idx = 0 := by omega
    rw [fri_combine_initial_loop]
    simp only [hidx0, if_false, decide_False, Bool.and_false, Nat.mul_zero,
      Nat.sub_zero, List.take_length, ReducingFactor.reduce, ReducingFactor.shift,
      Nat.zero_add, List.length_map, Bool.false_eq_true]
    rw [ih (idx + 1) (by omega), List.foldl_cons]
    congr 1
    simp only [combine_batch_spec, batch_polynomial_evals]
    rw [List.foldl_reverse, horner_foldr]

/-- C4: with hiding off (so that no batch carries blinding polynomials),
`fri_combine_initial` is the across-batch fold that, for each batch in order,
reduces that batch's claimed evaluations by successive powers of `alpha`,
divides out the claimed opening at the batch point, and accumulates as
`sum = alpha^k * sum + quotient` with `k` the batch's polynomial count. -/
theorem c4_combine_initial_accumulation (alpha : E) (subgroup_x : F)
    (pre : List E)
    (hhid : params.«hiding» = false)
    (hnoR : ∀ b ∈ inst.batches, ∀ q ∈ b.polynomials, q.oracle_index ≠ rIndex) :
    fri_combine_initial emb rIndex inst proof alpha subgroup_x pre params =
      (inst.batches.zip pre).foldl
        (combine_batch_spec emb inst proof params alpha (emb subgroup_x)) 0 := by
  unfold fri_combine_initial
  rcases hz : inst.batches.zip pre with _ | ⟨⟨batch, ro⟩, rest⟩
  · rfl
  · have hmem : batch ∈ inst.batches := by
      have : (batch, ro) ∈ inst.batches.zip pre := by
        rw [hz]
        exact List.mem_cons_self _ _
      exact (List.of_mem_zip this).1
    have hcount : (batch.polynomials.map
        fun q => if q.oracle_index = rIndex then 1 else 0).sum = 0 :=
      count_r_polys_zero rIndex batch.polynomials (hnoR batch hmem)
    rw [fri_combine_initial_loop]
    simp only [hhid, Bool.false_and, if_false, hcount, Nat.zero_mul, Nat.sub_zero,
      List.take_length, ReducingFactor.reduce, ReducingFactor.shift, Nat.zero_add,
      List.length_map, ReducingFactor.new, Bool.false_eq_true]
    rw [fri_combine_initial_loop_tail emb rIndex inst proof params _ alpha rest 1
      (by omega), List.foldl_cons]
    congr 1
    simp only [combine_batch_spec, batch_polynomial_evals]
    rw [List.foldl_reverse, horner_foldr]
    simp only [hhid, Bool.false_and]

/-- The source's blinding-polynomial scale factor equals the
specification-side shift: `1` for the first `R` polynomial and
`i * x^(2^(i*degree_bits))` afterwards. -/
theorem shift_val_eq (sx : E) (db i : Nat) :
    ((if i = 0 then 1 else 0 : Nat) : E) + exp_power_of_2 sx (i * db) * (i : E) =
      r_poly_shift sx db i := by
  rw [r_poly_shift, exp_power_of_2_eq]
  rcases eq_or_ne i 0 with rfl | h
  · simp
  · rw [if_neg h, if_neg h]
    simp only [Nat.cast_zero, zero_add]
    ring

/-- From index 1 on, the precomputed reduced openings use every claimed
value. -/
theorem from_os_loop_tail (alpha : E) (nbR : Nat) :
    ∀ (l : List (FriOpeningBatch E)) (idx : Nat), 1 ≤ idx →
      from_os_and_alpha_loop alpha nbR idx l =
        l.map fun b => reduceSpec alpha b.values := by
  intro l
  induction l with
  | nil => intro idx _; rfl
  | cons b tl ih =>
    intro idx hidx
    have hidx0 : ¬ idx = 0 := by omega
    rw [from_os_and_alpha_loop]
    simp only [hidx0, if_false, Nat.mul_zero, Nat.sub_zero, List.take_length,
      List.map_cons]
    rw [ih (idx + 1) (by omega)]
    congr 1
    rw [show ((ReducingFactor.new alpha).reduce b.values).1 =
      reduceSpec alpha b.values from reduce_fst _ _]

/-- C6: in hiding mode the blinding `R` polynomials at the tail of the first
batch are not quotiented: the quotient term of the first batch reduces only
the non-`R` polynomials, and the `R` evaluations are added directly to the
accumulator, each scaled by `r_poly_shift` — `1` for the first one,
`i * subgroup_x^(2^(i*degree_bits))` for the `i`-th — while
`from_os_and_alpha` excludes the last two claimed openings of the first batch
from the precomputed reduced openings. -/
theorem c6_zk_blinding_not_quotiented (alpha : E) (subgroup_x : F) (pre : List E)
    (hhid : params.«hiding» = true)
    (b0 : FriBatchInfo E) (rest : List (FriBatchInfo E)) (p0 : E) (prest : List E)
    (hb : inst.batches = b0 :: rest) (hp : pre = p0 :: prest)
    (qs rs : List FriPolynomialInfo)
    (hsplit : b0.polynomials = qs ++ rs)
    (hqs : ∀ q ∈ qs, q.oracle_index ≠ rIndex)
    (hrs : ∀ q ∈ rs, q.oracle_index = rIndex) :
    fri_combine_initial emb rIndex inst proof alpha subgroup_x pre params =
      (rest.zip prest).foldl
        (combine_batch_spec emb inst proof params alpha (emb subgroup_x))
        (alpha ^ qs.length * 0 +
          (reduceSpec alpha (qs.map fun q =>
              emb (proof.unsalted_eval q.oracle_index q.polynomial_index
                (params.«hiding» && oracle_blinding inst q.oracle_index))) - p0) /
            (emb subgroup_x - b0.point) +
          (rs.enum.map fun iq =>
            emb (proof.unsalted_eval iq.2.oracle_index iq.2.polynomial_index
              (params.«hiding» && oracle_blinding inst iq.2.oracle_index)) *
              r_poly_shift (emb subgroup_x) params.degree_bits iq.1).sum)
    ∧ (∀ (openings : FriOpenings E) (ob0 : FriOpeningBatch E)
          (obrest : List (FriOpeningBatch E)), openings.batches = ob0 :: obrest →
        PrecomputedReducedOpenings.from_os_and_alpha openings alpha true =
          reduceSpec alpha (ob0.values.take (ob0.values.length - 2)) ::
            obrest.map fun ob => reduceSpec alpha ob.values) := by
  constructor
  · unfold fri_combine_initial
    rw [hb, hp]
    have hcount : (b0.polynomials.map
        fun q => if q.oracle_index = rIndex then 1 else 0).sum = rs.length := by
      rw [hsplit]
      exact count_r_polys_append rIndex qs rs hqs hrs
    have hlast : b0.polynomials.length - rs.length * 1 = qs.length := by
      rw [hsplit, List.length_append]
      omega
    show fri_combine_initial_loop emb rIndex inst proof params (emb subgroup_x)
      (ReducingFactor.new alpha) 0 0 ((b0 :: rest).zip (p0 :: prest)) = _
    rw [List.zip_cons_cons, fri_combine_initial_loop]
    simp only [hhid, hcount, hlast, Bool.true_and, decide_True, if_true,
      ReducingFactor.reduce, ReducingFactor.shift, ReducingFactor.new,
      Nat.zero_add, List.length_map, List.length_take]
    rw [fri_combine_initial_loop_tail emb rIndex inst proof params _ alpha _ 1
      (by omega)]
    congr 1
    rw [hsplit, List.take_left, List.drop_left, List.foldl_reverse, horner_foldr]
    congr 1
    · congr 1
      simp
    · refine congrArg List.sum (List.map_congr_left fun iq _ => ?_)
      rw [shift_val_eq]
  · intro openings ob0 obrest hopen
    unfold PrecomputedReducedOpenings.from_os_and_alpha
    rw [hopen]
    show from_os_and_alpha_loop alpha 2 0 (ob0 :: obrest) = _
    rw [from_os_and_alpha_loop, from_os_loop_tail alpha 2 obrest 1 (by omega)]
    congr 1
    show ((ReducingFactor.new alpha).reduce
      (ob0.values.take (ob0.values.length - 2))).1 = _
    rw [reduce_fst]
    rfl

end CombineInitial

/-- Closed-form witness for `c4_combine_initial_accumulation`: one batch of
one polynomial over `ZMod 17`. -/
theorem c4_witness :
    ((⟨⟨1, 0, 0, 1⟩, false, 1, [1]⟩ : FriParams).«hiding» = false)
    ∧ (∀ b ∈ (⟨[⟨false⟩], [⟨3, [⟨0, 0⟩]⟩]⟩ : FriInstanceInfo (ZMod 17)).batches,
        ∀ q ∈ b.polynomials, q.oracle_index ≠ 4)
    ∧ fri_combine_initial (RingHom.id (ZMod 17)) 4
        (⟨[⟨false⟩], [⟨3, [⟨0, 0⟩]⟩]⟩ : FriInstanceInfo (ZMod 17))
        (⟨[([5], ())]⟩ : FriInitialTreeProof (ZMod 17) Unit) 2 1 [7]
        ⟨⟨1, 0, 0, 1⟩, false, 1, [1]⟩ =
      ((⟨[⟨false⟩], [⟨3, [⟨0, 0⟩]⟩]⟩ :
          FriInstanceInfo (ZMod 17)).batches.zip [7]).foldl
        (combine_batch_spec (RingHom.id (ZMod 17))
          (⟨[⟨false⟩], [⟨3, [⟨0, 0⟩]⟩]⟩ : FriInstanceInfo (ZMod 17))
          (⟨[([5], ())]⟩ : FriInitialTreeProof (ZMod 17) Unit)
          ⟨⟨1, 0, 0, 1⟩, false, 1, [1]⟩ 2 (1 : ZMod 17)) 0 :=
  ⟨rfl, by decide,
   c4_combine_initial_accumulation (RingHom.id (ZMod 17)) 4
     (⟨[⟨false⟩], [⟨3, [⟨0, 0⟩]⟩]⟩ : FriInstanceInfo (ZMod 17))
     (⟨[([5], ())]⟩ : FriInitialTreeProof (ZMod 17) Unit)
     ⟨⟨1, 0, 0, 1⟩, false, 1, [1]⟩ 2 1 [7] rfl (by decide)⟩

/-- Closed-form witness for `c6_zk_blinding_not_quotiented`: a hiding batch of
one ordinary and two `R` polynomials over `ZMod 17`. -/
theorem c6_witness :
    fri_combine_initial (RingHom.id (ZMod 17)) 4
        (⟨[⟨false⟩, ⟨false⟩, ⟨false⟩, ⟨false⟩, ⟨true⟩],
          [⟨3, [⟨0, 0⟩, ⟨4, 0⟩, ⟨4, 1⟩]⟩]⟩ : FriInstanceInfo (ZMod 17))
        (⟨[([5], ()), ([], ()), ([], ()), ([], ()), ([6, 9, 1, 2, 3, 4], ())]⟩ :
          FriInitialTreeProof (ZMod 17) Unit) 2 1 [7]
        ⟨⟨1, 0, 0, 1⟩, true, 1, [1]⟩ =
      (([] : List (FriBatchInfo (ZMod 17))).zip []).foldl
        (combine_batch_spec (RingHom.id (ZMod 17))
          (⟨[⟨false⟩, ⟨false⟩, ⟨false⟩, ⟨false⟩, ⟨true⟩],
            [⟨3, [⟨0, 0⟩, ⟨4, 0⟩, ⟨4, 1⟩]⟩]⟩ : FriInstanceInfo (ZMod 17))
          (⟨[([5], ()), ([], ()), ([], ()), ([], ()), ([6, 9, 1, 2, 3, 4], ())]⟩ :
            FriInitialTreeProof (ZMod 17) Unit)
          ⟨⟨1, 0, 0, 1⟩, true, 1, [1]⟩ 2 (1 : ZMod 17))
        ((2 : ZMod 17) ^ ([(⟨0, 0⟩ : FriPolynomialInfo)]).length * 0 +
          (reduceSpec 2 ([(⟨0, 0⟩ : FriPolynomialInfo)].map fun q =>
              RingHom.id (ZMod 17)
                ((⟨[([5], ()), ([], ()), ([], ()), ([], ()),
                    ([6, 9, 1, 2, 3, 4], ())]⟩ :
                  FriInitialTreeProof (ZMod 17) Unit).unsalted_eval q.oracle_index
                  q.polynomial_index
                  ((⟨⟨1, 0, 0, 1⟩, true, 1, [1]⟩ : FriParams).«hiding» &&
                    oracle_blinding
                      (⟨[⟨false⟩, ⟨false⟩, ⟨false⟩, ⟨false⟩, ⟨true⟩],
                        [⟨3, [⟨0, 0⟩, ⟨4, 0⟩, ⟨4, 1⟩]⟩]⟩ :
                        FriInstanceInfo (ZMod 17)) q.oracle_index))) - 7) /
            ((1 : ZMod 17) - 3) +
          (([(⟨4, 0⟩ : FriPolynomialInfo), ⟨4, 1⟩]).enum.map fun iq =>
            RingHom.id (ZMod 17)
              ((⟨[([5], ()), ([], ()), ([], ()), ([], ()),
                  ([6, 9, 1, 2, 3, 4], ())]⟩ :
                FriInitialTreeProof (ZMod 17) Unit).unsalted_eval
                iq.2.oracle_index iq.2.polynomial_index
                ((⟨⟨1, 0, 0, 1⟩, true, 1, [1]⟩ : FriParams).«hiding» &&
                  oracle_blinding
                    (⟨[⟨false⟩, ⟨false⟩, ⟨false⟩, ⟨false⟩, ⟨true⟩],
                      [⟨3, [⟨0, 0⟩, ⟨4, 0⟩, ⟨4, 1⟩]⟩]⟩ :
                      FriInstanceInfo (ZMod 17)) iq.2.oracle_index)) *
              r_poly_shift (1 : ZMod 17) 1 iq.1).sum)
    ∧ (∀ (openings : FriOpenings (ZMod 17)) (ob0 : FriOpeningBatch (ZMod 17))
          (obrest : List (FriOpeningBatch (ZMod 17))),
        openings.batches = ob0 :: obrest →
        PrecomputedReducedOpenings.from_os_and_alpha openings 2 true =
          reduceSpec 2 (ob0.values.take (ob0.values.length - 2)) ::
            obrest.map fun ob => reduceSpec 2 ob.values) :=
  c6_zk_blinding_not_quotiented (RingHom.id (ZMod 17)) 4
    (⟨[⟨false⟩, ⟨false⟩, ⟨false⟩, ⟨false⟩, ⟨true⟩],
      [⟨3, [⟨0, 0⟩, ⟨4, 0⟩, ⟨4, 1⟩]⟩]⟩ : FriInstanceInfo (ZMod 17))
    (⟨[([5], ()), ([], ()), ([], ()), ([], ()), ([6, 9, 1, 2, 3, 4], ())]⟩ :
      FriInitialTreeProof (ZMod 17) Unit)
    ⟨⟨1, 0, 0, 1⟩, true, 1, [1]⟩ 2 1 [7] rfl ⟨3, [⟨0, 0⟩, ⟨4, 0⟩, ⟨4, 1⟩]⟩ [] 7 []
    rfl rfl [⟨0, 0⟩] [⟨4, 0⟩, ⟨4, 1⟩] rfl (by decide) (by decide)

section Interpolation

variable {E : Type} [Field E] [DecidableEq E]

theorem getD_map_range {α : Type} (f : Nat → α) (n i : Nat) (h : i < n) (d : α) :
    ((List.range n).map f).getD i d = f i := by
  rw [List.getD_eq_getElem _ _ (by simp [h]), List.getElem_map, List.getElem_range]

theorem barycentric_weights_getD (points : List (E × E)) (i : Nat)
    (h : i < points.length) :
    (barycentric_weights points).getD i 0 =
      (∏ j ∈ (Finset.range points.length).erase i,
        ((points.getD i (0, 0)).1 - (points.getD j (0, 0)).1))⁻¹ := by
  unfold barycentric_weights
  exact getD_map_range _ _ _ h _

theorem bary_term_eq {K : Type} [Field K] (a P W r : K) (ha : a ≠ 0) :
    a * P * (W⁻¹ / a * r) = r * (W⁻¹ * P) := by
  rw [div_eq_mul_inv]
  have h : a * P * (W⁻¹ * a⁻¹ * r) = (a * a⁻¹) * (P * W⁻¹ * r) := by ring
  rw [h, mul_inv_cancel₀ ha, one_mul]
  ring

theorem eval_lagrange_basis (s : Finset Nat) (v : Nat → E) (i : Nat) (x : E) :
    (Lagrange.basis s v i).eval x = ∏ j ∈ s.erase i, ((v i - v j)⁻¹ * (x - v j)) := by
  rw [Lagrange.basis, Polynomial.eval_prod]
  refine Finset.prod_congr rfl fun j _ => ?_
  simp [Lagrange.basisDivisor]

/-- The modelled barycentric interpolation agrees with the evaluation of the
Lagrange interpolation polynomial whenever the nodes are distinct. -/
theorem interpolate_eq_lagrange (points : List (E × E)) (x : E)
    (hinj : Set.InjOn (fun j => (points.getD j (0, 0)).1)
      (Finset.range points.length)) :
    interpolate points x (barycentric_weights points) =
      Polynomial.eval x (Lagrange.interpolate (Finset.range points.length)
        (fun j => (points.getD j (0, 0)).1) (fun j => (points.getD j (0, 0)).2)) := by
  unfold interpolate
  rcases hf : points.find? (fun p => decide (p.1 = x)) with _ | p
  · rw [hf]
    have hne : ∀ j ∈ Finset.range points.length,
        x - (points.getD j (0, 0)).1 ≠ 0 := by
      intro j hj
      rw [Finset.mem_range] at hj
      have hmem : points.getD j (0, 0) ∈ points := by
        rw [List.getD_eq_getElem _ _ hj]
        exact List.getElem_mem _
      have hx := List.find?_eq_none.1 hf _ hmem
      simp only [decide_eq_true_eq] at hx
      exact sub_ne_zero.mpr (Ne.symm hx)
    rw [Lagrange.interpolate_apply, Polynomial.eval_finset_sum, Finset.mul_sum]
    refine Finset.sum_congr rfl fun i hi => ?_
    rw [Polynomial.eval_mul, Polynomial.eval_C, eval_lagrange_basis,
      barycentric_weights_getD _ _ (Finset.mem_range.1 hi), Finset.prod_mul_distrib,
      Finset.prod_inv_distrib,
      ← Finset.mul_prod_erase (Finset.range points.length)
        (fun j => x - (points.getD j (0, 0)).1) hi]
    have hxi : x - (points.getD i (0, 0)).1 ≠ 0 := hne i hi
    exact bary_term_eq _ _ _ _ hxi
  · rw [hf]
    have hpx : p.1 = x := by simpa using List.find?_some hf
    have hmem := List.mem_of_find?_eq_some hf
    obtain ⟨i, hi, hip⟩ := List.getElem_of_mem hmem
    have hgd : points.getD i (0, 0) = p := by
      rw [List.getD_eq_getElem _ _ hi, hip]
    have hnode := Lagrange.eval_interpolate_at_node
      (fun j => (points.getD j (0, 0)).2) hinj (Finset.mem_range.2 hi)
    simp only at hnode
    rw [hgd, hpx] at hnode
    rw [hnode]

end Interpolation

theorem powersList_length {M : Type} [Monoid M] (g : M) (n : Nat) :
    (powersList g n).length = n := by
  simp [powersList]

theorem powersList_getD {M : Type} [Monoid M] (g : M) (n i : Nat) (h : i < n) (d : M) :
    (powersList g n).getD i d = g ^ i :=
  getD_map_range _ _ _ h _

theorem getD_zip {α β : Type} (l1 : List α) (l2 : List β) (i : Nat) (d1 : α) (d2 : β)
    (h1 : i < l1.length) (h2 : i < l2.length) :
    (l1.zip l2).getD i (d1, d2) = (l1.getD i d1, l2.getD i d2) := by
  rw [List.getD_eq_getElem _ _ (by rw [List.length_zip]; omega), List.getElem_zip,
    List.getD_eq_getElem _ _ h1, List.getD_eq_getElem _ _ h2]

theorem getD_map_in {α β : Type} (f : α → β) (l : List α) (i : Nat) (d : β) (dflt : α)
    (h : i < l.length) : (l.map f).getD i d = f (l.getD i dflt) := by
  rw [List.getD_eq_getElem _ _ (by simp [h]), List.getElem_map,
    List.getD_eq_getElem _ _ h]

set_option maxHeartbeats 2000000 in
/-- C2: `compute_evaluation` returns the value at `beta` of the unique
polynomial of degree below `2^arity_bits` that interpolates the points
`(coset_start * g^j, evals[reverse_bits j arity_bits])` for
`j < 2^arity_bits`, where `g` is the `2^arity_bits`-th root of unity and
`coset_start = x * g^(2^arity_bits - reverse_bits i arity_bits)` — the
evaluation vector is bit-reverse reordered before the barycentric
interpolation.  The hypotheses say that `evals` has the full coset size, that
`x` is a nonzero domain point, and that `g` generates `2^arity_bits` distinct
powers (`arity_bits ≤ 63` reflects the `usize` shift `1 << arity_bits`). -/
theorem c2_compute_evaluation_interpolates {F E : Type} [Field F] [Field E]
    [DecidableEq E] (emb : F →+* E) (c : FieldConfig F) (x : F)
    (i arity_bits : Nat) (evals : List E) (beta : E)
    (hb : arity_bits ≤ 63)
    (hlen : evals.length = 2 ^ arity_bits)
    (hx : x ≠ 0)
    (hg1 : primitive_root_of_unity c arity_bits ^ 2 ^ arity_bits = 1)
    (hginj : ∀ a < 2 ^ arity_bits, ∀ b < 2 ^ arity_bits,
      primitive_root_of_unity c arity_bits ^ a =
        primitive_root_of_unity c arity_bits ^ b → a = b) :
    ∃ p : Polynomial E,
      (p.degree < (2 ^ arity_bits : Nat)
        ∧ (∀ j < 2 ^ arity_bits,
            p.eval (emb (x * primitive_root_of_unity c arity_bits ^
                (2 ^ arity_bits - reverse_bits i arity_bits) *
                primitive_root_of_unity c arity_bits ^ j)) =
              evals.getD (reverse_bits j arity_bits) 0)
        ∧ compute_evaluation emb c x i arity_bits evals beta = p.eval beta)
      ∧ ∀ q : Polynomial E, q.degree < (2 ^ arity_bits : Nat) →
          (∀ j < 2 ^ arity_bits,
            q.eval (emb (x * primitive_root_of_unity c arity_bits ^
                (2 ^ arity_bits - reverse_bits i arity_bits) *
                primitive_root_of_unity c arity_bits ^ j)) =
              evals.getD (reverse_bits j arity_bits) 0) →
          q = p := by
  have hk64 : arity_bits ≤ 64 := by omega
  have hgne : primitive_root_of_unity c arity_bits ≠ 0 := by
    intro h0
    rw [h0, zero_pow ((by positivity : (0 : Nat) < 2 ^ arity_bits)).ne'] at hg1
    exact zero_ne_one hg1
  have hcs : x * primitive_root_of_unity c arity_bits ^
      (2 ^ arity_bits - reverse_bits i arity_bits) ≠ 0 :=
    mul_ne_zero hx (pow_ne_zero _ hgne)
  have hlen' : (reverse_index_bits_in_place evals).length = 2 ^ arity_bits := by
    rw [reverse_index_bits_in_place_length evals arity_bits hlen hk64, hlen]
  have hplen : (((powersList (primitive_root_of_unity c arity_bits)
      (reverse_index_bits_in_place evals).length).map fun y =>
        emb (x * primitive_root_of_unity c arity_bits ^
          (2 ^ arity_bits - reverse_bits i arity_bits) * y)).zip
      (reverse_index_bits_in_place evals)).length = 2 ^ arity_bits := by
    rw [List.length_zip, List.length_map, powersList_length, hlen', Nat.min_self]
  have hpget : ∀ j < 2 ^ arity_bits,
      ((((powersList (primitive_root_of_unity c arity_bits)
          (reverse_index_bits_in_place evals).length).map fun y =>
            emb (x * primitive_root_of_unity c arity_bits ^
              (2 ^ arity_bits - reverse_bits i arity_bits) * y)).zip
          (reverse_index_bits_in_place evals)).getD j (0, 0)) =
        (emb (x * primitive_root_of_unity c arity_bits ^
            (2 ^ arity_bits - reverse_bits i arity_bits) *
            primitive_root_of_unity c arity_bits ^ j),
         evals.getD (reverse_bits j arity_bits) 0) := by
    intro j hj
    rw [getD_zip _ _ j 0 0
      (by rw [List.length_map, powersList_length, hlen']; exact hj)
      (by rw [hlen']; exact hj)]
    congr 1
    · rw [getD_map_in _ _ j 0 1
        (by rw [powersList_length, hlen']; exact hj),
        powersList_getD _ _ j (by rw [hlen']; exact hj) 1]
    · rw [reverse_index_bits_in_place_getD evals arity_bits hlen hk64 0 j
        (by rw [hlen]; exact hj),
        reverse_bits_eq j arity_bits hk64 hj]
  have hinj : Set.InjOn
      (fun j => ((((powersList (primitive_root_of_unity c arity_bits)
          (reverse_index_bits_in_place evals).length).map fun y =>
            emb (x * primitive_root_of_unity c arity_bits ^
              (2 ^ arity_bits - reverse_bits i arity_bits) * y)).zip
          (reverse_index_bits_in_place evals)).getD j (0, 0)).1)
      ↑(Finset.range (((powersList (primitive_root_of_unity c arity_bits)
          (reverse_index_bits_in_place evals).length).map fun y =>
            emb (x * primitive_root_of_unity c arity_bits ^
              (2 ^ arity_bits - reverse_bits i arity_bits) * y)).zip
          (reverse_index_bits_in_place evals)).length) := by
    intro j1 h1 j2 h2 heq
    rw [Finset.mem_coe, Finset.mem_range, hplen] at h1 h2
    simp only [hpget j1 h1, hpget j2 h2] at heq
    have heq2 := emb.injective heq
    have heq3 := mul_left_cancel₀ hcs heq2
    exact hginj j1 h1 j2 h2 heq3
  refine ⟨Lagrange.interpolate (Finset.range (((powersList
      (primitive_root_of_unity c arity_bits)
      (reverse_index_bits_in_place evals).length).map fun y =>
        emb (x * primitive_root_of_unity c arity_bits ^
          (2 ^ arity_bits - reverse_bits i arity_bits) * y)).zip
      (reverse_index_bits_in_place evals)).length)
    (fun j => ((((powersList (primitive_root_of_unity c arity_bits)
        (reverse_index_bits_in_place evals).length).map fun y =>
          emb (x * primitive_root_of_unity c arity_bits ^
            (2 ^ arity_bits - reverse_bits i arity_bits) * y)).zip
        (reverse_index_bits_in_place evals)).getD j (0, 0)).1)
    (fun j => ((((powersList (primitive_root_of_unity c arity_bits)
        (reverse_index_bits_in_place evals).length).map fun y =>
          emb (x * primitive_root_of_unity c arity_bits ^
            (2 ^ arity_bits - reverse_bits i arity_bits) * y)).zip
        (reverse_index_bits_in_place evals)).getD j (0, 0)).2),
    ⟨?_, ?_, ?_⟩, ?_⟩
  · have hd := Lagrange.degree_interpolate_lt
      (fun j => ((((powersList (primitive_root_of_unity c arity_bits)
        (reverse_index_bits_in_place evals).length).map fun y =>
          emb (x * primitive_root_of_unity c arity_bits ^
            (2 ^ arity_bits - reverse_bits i arity_bits) * y)).zip
        (reverse_index_bits_in_place evals)).getD j (0, 0)).2) hinj
    rw [Finset.card_range] at hd
    exact hd.trans_eq (by rw [hplen])
  · intro j hj
    have hnode := Lagrange.eval_interpolate_at_node
      (fun j => ((((powersList (primitive_root_of_unity c arity_bits)
        (reverse_index_bits_in_place evals).length).map fun y =>
          emb (x * primitive_root_of_unity c arity_bits ^
            (2 ^ arity_bits - reverse_bits i arity_bits) * y)).zip
        (reverse_index_bits_in_place evals)).getD j (0, 0)).2) hinj
      (Finset.mem_range.2 (by rw [hplen]; exact hj))
    simp only [hpget j hj] at hnode
    exact hnode
  · show interpolate (((powersList (primitive_root_of_unity c arity_bits)
        (reverse_index_bits_in_place evals).length).map fun y =>
          emb (x * exp_u64 (primitive_root_of_unity c arity_bits)
            (2 ^ arity_bits - reverse_bits i arity_bits) * y)).zip
        (reverse_index_bits_in_place evals)) beta
        (barycentric_weights _) = _
    rw [exp_u64_eq _ _ (by
      have h1 : (2 : Nat) ^ arity_bits ≤ 2 ^ 63 := Nat.pow_le_pow_right (by norm_num) hb
      have h2 : (2 : Nat) ^ 63 < 2 ^ 64 := by norm_num
      omega)]
    exact interpolate_eq_lagrange _ beta hinj
  · intro q hqd hqe
    refine Lagrange.eq_interpolate_of_eval_eq _ hinj ?_ ?_
    · rwa [Finset.card_range, hplen]
    · intro j hj
      rw [Finset.mem_range, hplen] at hj
      simp only [hpget j hj]
      exact hqe j hj

/-- Closed-form witness for `c2_compute_evaluation_interpolates`: over
`ZMod 17` with field configuration `⟨3, 3, 4⟩`, the `arity_bits = 1` root of
unity is `3 ^ 8 = 16 = -1`, whose two powers `1` and `16` are distinct, so
folding the coset evaluations `[4, 0]` at `beta = 5` agrees with the unique
interpolating polynomial of degree below `2`. -/
theorem c2_witness :
    ((1 : Nat) ≤ 63
      ∧ ([(4 : ZMod 17), 0]).length = 2 ^ 1
      ∧ (2 : ZMod 17) ≠ 0
      ∧ primitive_root_of_unity (⟨3, 3, 4⟩ : FieldConfig (ZMod 17)) 1 ^ 2 ^ 1 = 1
      ∧ (∀ a < 2 ^ 1, ∀ b < 2 ^ 1,
          primitive_root_of_unity (⟨3, 3, 4⟩ : FieldConfig (ZMod 17)) 1 ^ a =
            primitive_root_of_unity (⟨3, 3, 4⟩ : FieldConfig (ZMod 17)) 1 ^ b → a = b))
    ∧ (∃ p : Polynomial (ZMod 17),
        (p.degree < (2 ^ 1 : Nat)
          ∧ (∀ j < 2 ^ 1,
              p.eval ((RingHom.id (ZMod 17))
                  (2 * primitive_root_of_unity (⟨3, 3, 4⟩ : FieldConfig (ZMod 17)) 1 ^
                      (2 ^ 1 - reverse_bits 1 1) *
                    primitive_root_of_unity (⟨3, 3, 4⟩ : FieldConfig (ZMod 17)) 1 ^ j)) =
                ([(4 : ZMod 17), 0]).getD (reverse_bits j 1) 0)
          ∧ compute_evaluation (RingHom.id (ZMod 17)) ⟨3, 3, 4⟩ 2 1 1 [4, 0] 5 =
              p.eval 5)
        ∧ ∀ q : Polynomial (ZMod 17), q.degree < (2 ^ 1 : Nat) →
            (∀ j < 2 ^ 1,
              q.eval ((RingHom.id (ZMod 17))
                  (2 * primitive_root_of_unity (⟨3, 3, 4⟩ : FieldConfig (ZMod 17)) 1 ^
                      (2 ^ 1 - reverse_bits 1 1) *
                    primitive_root_of_unity (⟨3, 3, 4⟩ : FieldConfig (ZMod 17)) 1 ^ j)) =
                ([(4 : ZMod 17), 0]).getD (reverse_bits j 1) 0) →
            q = p) :=
  ⟨⟨by decide, by decide, by decide, by decide, by decide⟩,
   c2_compute_evaluation_interpolates (RingHom.id (ZMod 17)) ⟨3, 3, 4⟩ 2 1 1 [4, 0] 5
     (by decide) (by decide) (by decide) (by decide) (by decide)⟩

end Plonky2
